import Mathlib

/-!
The copy-on-write trie of the bustub primer (src/primer/trie.cpp).

A shallow embedding of `Trie::Get`, `Trie::Put` and `Trie::Remove`.

The C++ code works on reference-counted nodes that it reaches through raw
pointers (`const_cast<TrieNode*>(... .get())`) and updates in place, so the
embedding keeps an explicit heap: a list of nodes, addressed by position.
`make_shared` appends a node, a write through a raw pointer replaces the node
stored at that address.  Nodes are never freed in the model (a node that the
C++ code releases is simply no longer referenced).

Every operation returns an `Option`: `none` stands for a fatal error of the
C++ program (dereferencing a null or dangling pointer, `std::map::at` on a
missing key, `back()` of an empty key).
-/

namespace bustub

/-! ## Data model -/

/-- The value types the templates are instantiated with at the end of trie.cpp:
`uint32_t`, `uint64_t` and `std::string`. -/
inductive Ty where
  | u32
  | u64
  | str
  deriving DecidableEq, Repr

/-- A stored payload together with its static type, the information that
`dynamic_cast<TrieNodeWithValue<T>*>` inspects. -/
inductive Value where
  | u32 (n : Fin 4294967296)
  | u64 (n : Fin 18446744073709551616)
  | str (s : List Char)
  deriving DecidableEq

/-- The static type `T` of a payload. -/
def Value.ty : Value → Ty
  | .u32 _ => .u32
  | .u64 _ => .u64
  | .str _ => .str

/-- A node: `children_` is the `std::map<char, std::shared_ptr<const TrieNode>>`
(an association list with at most one entry per character, the pointers being
heap addresses); `value_` is `none` for a plain `TrieNode` and `some v` for a
`TrieNodeWithValue<T>` holding `v` of type `T`. -/
structure TrieNode where
  children_ : List (Char × Nat)
  value_ : Option Value
  deriving DecidableEq

/-- The heap of nodes; an address is a position in the list. -/
abbrev Heap := List TrieNode

/-- A trie handle: `root_` is `none` for the null pointer. -/
structure Trie where
  root_ : Option Nat
  deriving DecidableEq

/-- The lookup `children_.find(c)`: `none` is `children_.end()`. -/
def mapFind : List (Char × Nat) → Char → Option Nat
  | [], _ => none
  | (d, b) :: m, c => if d = c then some b else mapFind m c

/-- The call `children_.insert({c, a})`: it adds the entry only when `c` has
none yet. -/
def mapInsert (m : List (Char × Nat)) (c : Char) (a : Nat) : List (Char × Nat) :=
  match mapFind m c with
  | some _ => m
  | none => m ++ [(c, a)]

/-- The assignment `children_[c] = a`: it overwrites the entry of `c` or adds
one. -/
def mapAssign : List (Char × Nat) → Char → Nat → List (Char × Nat)
  | [], c, a => [(c, a)]
  | (d, b) :: m, c, a => if d = c then (d, a) :: m else (d, b) :: mapAssign m c a

/-- The test `dynamic_cast<TrieNodeWithValue<T>*>(node) != nullptr`. -/
def castsTo (n : TrieNode) (T : Ty) : Bool :=
  match n.value_ with
  | some v => decide (v.ty = T)
  | none => false

/-! ## Get (trie.cpp lines 8-33) -/

/-- The loop of `Trie::Get` (lines 20-25) started at node `next`:
`some none` is the early `return nullptr`, `some (some a)` the node reached. -/
def getLoop : Heap → Nat → List Char → Option (Option Nat)
  | _, next, [] => some (some next)
  | h, next, c :: cs =>
    match h[next]? with
    | none => none
    | some n =>
      match mapFind n.children_ c with
      | none => some none
      | some child => getLoop h child cs

/-- The read `Trie::Get<T>(key)`: `some none` is `nullptr` (not found),
`some (some v)` the value pointed to by the result. -/
def Get (h : Heap) (t : Trie) (T : Ty) (key : List Char) : Option (Option Value) :=
  match t.root_ with
  | none => some none
  | some r =>
    let key := if key = [] then [' '] else key
    match getLoop h r key with
    | none => none
    | some none => some none
    | some (some next) =>
      match h[next]? with
      | none => none
      | some n =>
        if castsTo n T then some n.value_ else some none

/-! ## Put (trie.cpp lines 35-71) -/

/-- Modelled from the spec: `Trie::Clone` is declared in primer/trie.h, which is
not among the sources. The spec (4.2 step 1) has the clone start from a copy
of the root while "untouched siblings and subtrees are shared by reference,
not copied": the clone is a trie whose root is a new node with the children
mapping and value of the receiver's root. -/
def Trie.Clone (h : Heap) (t : Trie) : Option (Heap × Trie) :=
  match t.root_ with
  | none => some (h, ⟨none⟩)
  | some r =>
    match h[r]? with
    | none => none
    | some n => some (h ++ [n], ⟨some h.length⟩)

/-- The loop of `Trie::Put` (lines 54-60): a missing child is created and
inserted into the node `next` points to, in place; the result is the heap and
the final `next` and `parent`. -/
def putLoop : Heap → Nat → Option Nat → List Char → Option (Heap × Nat × Option Nat)
  | h, next, parent, [] => some (h, next, parent)
  | h, next, _, c :: cs =>
    match h[next]? with
    | none => none
    | some n =>
      let h1 : Heap :=
        match mapFind n.children_ c with
        | none => (h ++ [TrieNode.mk [] none]).set next ⟨mapInsert n.children_ c h.length, n.value_⟩
        | some _ => h
      match h1[next]? with
      | none => none
      | some n1 =>
        match mapFind n1.children_ c with
        | none => none
        | some child => putLoop h1 child (some next) cs

/-- Lines 62-68 of `Trie::Put`: when the node reached is not a
`TrieNodeWithValue<T>`, a new node with its children and the value is linked
into `parent` under `key.back()`; otherwise the value of the node reached is
replaced in place. -/
def putStore (h : Heap) (next : Nat) (parent : Option Nat) (key : List Char)
    (value : Value) : Option Heap :=
  match h[next]? with
  | none => none
  | some n =>
    if castsTo n value.ty = false then
      let h1 : Heap := h ++ [TrieNode.mk n.children_ (some value)]
      match parent, key.getLast? with
      | some p, some last =>
        match h1[p]? with
        | none => none
        | some pn => some (h1.set p ⟨mapAssign pn.children_ last h.length, pn.value_⟩)
      | _, _ => none
    else
      some (h.set next ⟨n.children_, some value⟩)

/-- The update `Trie::Put<T>(key, value)` with `T = value.ty`. -/
def Put (h : Heap) (t : Trie) (key : List Char) (value : Value) : Option (Heap × Trie) :=
  let cloned : Option (Heap × Trie) :=
    match t.root_ with
    | none => some (h ++ [TrieNode.mk [] none], ⟨some h.length⟩)
    | some _ => Trie.Clone h t
  match cloned with
  | none => none
  | some (h0, clone) =>
    let key := if key = [] then [' '] else key
    match clone.root_ with
    | none => none
    | some root =>
      match putLoop h0 root none key with
      | none => none
      | some (h1, next, parent) =>
        match putStore h1 next parent key value with
        | none => none
        | some h2 => some (h2, clone)

/-! ## Remove (trie.cpp lines 73-93) -/

/-- The loop of `Trie::Remove` (lines 82-88): `some none` is the early
`return *this`. -/
def removeLoop : Heap → Nat → Option Nat → List Char → Option (Option (Nat × Option Nat))
  | _, next, parent, [] => some (some (next, parent))
  | h, next, _, c :: cs =>
    match h[next]? with
    | none => none
    | some n =>
      match mapFind n.children_ c with
      | none => some none
      | some child => removeLoop h child (some next) cs

/-- The update `Trie::Remove(key)`. The key is used as given: the function has
no counterpart of the `key.empty()` test of Get and Put. -/
def Remove (h : Heap) (t : Trie) (key : List Char) : Option (Heap × Trie) :=
  match t.root_ with
  | none => some (h, t)
  | some _ =>
    match Trie.Clone h t with
    | none => none
    | some (h0, clone) =>
      match clone.root_ with
      | none => none
      | some root =>
        match removeLoop h0 root none key with
        | none => none
        | some none => some (h0, t)
        | some (some (next, parent)) =>
          match h0[next]? with
          | none => none
          | some n =>
            let h1 : Heap := h0 ++ [TrieNode.mk n.children_ none]
            match parent, key.getLast? with
            | some p, some last =>
              match h1[p]? with
              | none => none
              | some pn =>
                some (h1.set p ⟨mapAssign pn.children_ last h0.length, pn.value_⟩, clone)
            | _, _ => none

/-! ## Published versions -/

/-- The states a program can be in: a heap together with the trie versions
created so far, starting from the empty trie and applying Put and Remove to
any version already created. -/
inductive Reach : Heap → List Trie → Prop where
  | init : Reach [] [⟨none⟩]
  | put {h : Heap} {ts : List Trie} {t : Trie} {h1 : Heap} {t1 : Trie}
      (key : List Char) (value : Value) :
      Reach h ts → t ∈ ts → Put h t key value = some (h1, t1) → Reach h1 (t1 :: ts)
  | remove {h : Heap} {ts : List Trie} {t : Trie} {h1 : Heap} {t1 : Trie}
      (key : List Char) :
      Reach h ts → t ∈ ts → Remove h t key = some (h1, t1) → Reach h1 (t1 :: ts)

/-! ## Notions used in the proofs -/

/-- What a reader finds when walking `cs` down from node `a`: the `value_`
slot of the node reached (`some none` when the path is missing or the node
carries no value), before the type test of `Get`. -/
def valueAt : Heap → Nat → List Char → Option (Option Value)
  | h, a, [] =>
    match h[a]? with
    | none => none
    | some n => some n.value_
  | h, a, c :: cs =>
    match h[a]? with
    | none => none
    | some n =>
      match mapFind n.children_ c with
      | none => some none
      | some b => valueAt h b cs

/-- The slot read through a trie handle. -/
def slotOf (h : Heap) (t : Trie) (cs : List Char) : Option (Option Value) :=
  match t.root_ with
  | none => some none
  | some r => valueAt h r cs

/-- The type test of `Get<T>` applied to a slot. -/
def typed (T : Ty) : Option Value → Option Value
  | some v => if v.ty = T then some v else none
  | none => none

/-- The key after the `key.empty()` test of Get and Put. -/
def normKey (key : List Char) : List Char := if key = [] then [' '] else key

/-- Well-formed heap: every child pointer is a valid address, and every node
sits at one position of the key space (`path a` is the string spelled from any
root to `a`). -/
def WF (h : Heap) (path : Nat → List Char) : Prop :=
  ∀ a n, h[a]? = some n → ∀ c b, mapFind n.children_ c = some b →
    b < h.length ∧ path b = path a ++ [c]

/-- A trie handle is null or points to a valid node labelled as a root. -/
def RootOK (h : Heap) (path : Nat → List Char) (t : Trie) : Prop :=
  ∀ r, t.root_ = some r → r < h.length ∧ path r = []

/-- The invariant of reachable states. -/
def Inv (h : Heap) (ts : List Trie) : Prop :=
  ∃ path, WF h path ∧ ∀ t, t ∈ ts → RootOK h path t

/-! ## Concrete scenarios -/

def catKey : List Char := ['c', 'a', 't']

def carKey : List Char := ['c', 'a', 'r']

def caKey : List Char := ['c', 'a']

/-- The empty trie `Trie()`. -/
def emptyTrie : Trie := ⟨none⟩

/-- The heap left by `Trie().Put("cat", 1)`. -/
def catHeap : Heap :=
  [⟨[('c', 1)], none⟩, ⟨[('a', 2)], none⟩, ⟨[('t', 4)], none⟩, ⟨[], none⟩,
    ⟨[], some (.u32 1)⟩]

/-- The trie returned by `Trie().Put("cat", 1)`. -/
def catTrie : Trie := ⟨some 0⟩

/-- The scenario of section 8 of the spec, `t1 = Trie().Put("cat", 1)`,
`t2 = t1.Put("car", 2)`, `t3 = t2.Put("cat", 3)`: the reads of "cat" through
`t1` before the third Put, through `t1` after it and through `t2` after it. -/
def catCarCatReads :
    Option (Option (Option Value) × Option (Option Value) × Option (Option Value)) :=
  match Put [] emptyTrie catKey (.u32 1) with
  | none => none
  | some (h1, t1) =>
    match Put h1 t1 carKey (.u32 2) with
    | none => none
    | some (h2, t2) =>
      match Put h2 t2 catKey (.u32 3) with
      | none => none
      | some (h3, _) =>
        some (Get h2 t1 .u32 catKey, Get h3 t1 .u32 catKey, Get h3 t2 .u32 catKey)

/-- The reads of "cat" through `t1 = Trie().Put("cat", 1)` before and after
`t1.Remove("cat")` has been computed. -/
def removeCatReads : Option (Option (Option Value) × Option (Option Value)) :=
  match Put [] emptyTrie catKey (.u32 1) with
  | none => none
  | some (h1, t1) =>
    match Remove h1 t1 catKey with
    | none => none
    | some (h2, _) => some (Get h1 t1 .u32 catKey, Get h2 t1 .u32 catKey)

/-- The outcomes of `t.Remove("")` and `t.Remove(" ")` for
`t = Trie().Put("", 42)`: `none` is a fatal error, `some r` a returned trie
with `r` the read of "" through it. -/
def removeEmptyKeyOutcomes : Option (Option (Option (Option Value)) ×
    Option (Option (Option Value))) :=
  match Put [] emptyTrie [] (.u32 42) with
  | none => none
  | some (h1, t1) =>
    some ((Remove h1 t1 []).map (fun s => Get s.1 s.2 .u32 []),
      (Remove h1 t1 [' ']).map (fun s => Get s.1 s.2 .u32 []))

/-! ## A single chain of versions and the finite map it refines -/

/-- An update of the trie: `Put(key, value)` or `Remove(key)`. -/
inductive Op where
  | put (key : List Char) (value : Value)
  | remove (key : List Char)
  deriving DecidableEq

/-- One update applied to a heap and a trie version. -/
def applyOp (s : Heap × Trie) : Op → Option (Heap × Trie)
  | .put key value => Put s.1 s.2 key value
  | .remove key => Remove s.1 s.2 key

/-- A sequence of updates, each applied to the result of the previous one. -/
def runChain : List Op → Heap × Trie → Option (Heap × Trie)
  | [], s => some s
  | op :: ops, s =>
    match applyOp s op with
    | none => none
    | some s1 => runChain ops s1

/-- The finite map that a chain of versions refines, from normalised keys to
typed values, after one update: an insert or a delete at the normalised key. -/
def specMapApply (m : List Char → Option Value) : Op → List Char → Option Value
  | .put key value => fun k => if k = normKey key then some value else m k
  | .remove key => fun k => if k = normKey key then none else m k

/-- The finite map after a sequence of updates applied in order. -/
def specMapRun : List Op → (List Char → Option Value) → List Char → Option Value
  | [], m => m
  | op :: ops, m => specMapRun ops (specMapApply m op)

/-- The lookup of a key at read type `T` in the finite map: the value stored
at the normalised key, found only when its type is `T`. -/
def specMapGet (m : List Char → Option Value) (T : Ty) (key : List Char) : Option Value :=
  typed T (m (normKey key))

/-- The updates of a chain never remove the empty key. -/
def NoEmptyRemove (ops : List Op) : Prop :=
  ∀ key, Op.remove key ∈ ops → key ≠ []

/-! ## HyperLogLog (hyperloglog.cpp)

Bitsets are natural numbers below `2 ^ BITSET_CAPACITY`, bit `i` of `bset`
being `bset.testBit i` (bit 0 is the least significant one). The hash of the
added element is an input: `CalculateHash` is declared in the header. -/

/-- Modelled from the spec: the macro `BITSET_CAPACITY` of primer/hyperloglog.h,
which is not among the sources; the bitsets of the hash have 64 bits. -/
def BITSET_CAPACITY : Nat := 64

/-- The object state: `registers_` is the vector of registers, `b_` the number
of index bits (an `int16_t`, here a natural number). -/
structure HyperLogLog where
  cardinality_ : Nat
  registers_ : List Nat
  b_ : Nat
  deriving DecidableEq

/-- The constructor `HyperLogLog(n_bits)` (lines 20-26): `1 << n_bits` zeroed
registers; the test of `b_` changes nothing. -/
def HyperLogLog.create (n_bits : Nat) : HyperLogLog :=
  ⟨0, List.replicate (1 <<< n_bits) 0, n_bits⟩

/-- The conversion `ComputeBinary(hash)`, that is `std::bitset<64>(hash)`. -/
def HyperLogLog.ComputeBinary (hash : Nat) : Nat := hash % 2 ^ BITSET_CAPACITY

/-- The loop of `PositionOfLeftmostOne` (lines 47-51), with `i + 1` bit
positions still to test: `i, i - 1, ..., 0`; the loop ends when `i` gets
below 0 and the function returns 0. -/
def HyperLogLog.leftmostLoop (b_ : Nat) (bset : Nat) : Nat → Nat
  | 0 => 0
  | i + 1 =>
    if bset.testBit i then BITSET_CAPACITY - b_ - i
    else HyperLogLog.leftmostLoop b_ bset i

/-- The method `PositionOfLeftmostOne(bset)`: the loop starts at
`i = BITSET_CAPACITY - 1 - b_` (no iteration when that is negative). -/
def HyperLogLog.PositionOfLeftmostOne (b_ : Nat) (bset : Nat) : Nat :=
  HyperLogLog.leftmostLoop b_ bset (BITSET_CAPACITY - b_)

/-- The method `HyperLogLog::CalcIndex(bset)` (lines 71-77), for
`b_ ≤ BITSET_CAPACITY`: the shifts work on 64-bit bitsets, so the left shift
drops the bits pushed beyond bit 63. -/
def HyperLogLog.CalcIndex (b_ : Nat) (bset : Nat) : Nat :=
  let mask := ((2 ^ BITSET_CAPACITY - 1) <<< (BITSET_CAPACITY - b_)) % 2 ^ BITSET_CAPACITY
  let extracted := bset &&& mask
  extracted >>> (BITSET_CAPACITY - b_)

/-- The method `HyperLogLog::AddElem(val)` (lines 60-69) with
`hash = CalculateHash(val)`; `none` is an access outside `registers_`. -/
def HyperLogLog.AddElem (s : HyperLogLog) (hash : Nat) : Option HyperLogLog :=
  let bset := HyperLogLog.ComputeBinary hash
  let register_idx := HyperLogLog.CalcIndex s.b_ bset
  let p := HyperLogLog.PositionOfLeftmostOne s.b_ bset
  match s.registers_[register_idx]? with
  | none => none
  | some old => some ⟨s.cardinality_, s.registers_.set register_idx (max old p), s.b_⟩

/-- A sequence of `AddElem` calls, given by the hashes of the elements. -/
def HyperLogLog.addAll : HyperLogLog → List Nat → Option HyperLogLog
  | s, [] => some s
  | s, hash :: rest =>
    match HyperLogLog.AddElem s hash with
    | none => none
    | some s1 => HyperLogLog.addAll s1 rest

/-! ## HyperLogLogPresto (hyperloglog_presto.cpp) -/

/-- Modelled from the spec: the macro `DENSE_BUCKET_SIZE` of
primer/hyperloglog_presto.h, which is not among the sources; the dense bucket
holds the low 4 bits of a register. -/
def DENSE_BUCKET_SIZE : Nat := 4

/-- Modelled from the spec: the macro `OVERFLOW_BUCKET_SIZE` of
primer/hyperloglog_presto.h, which is not among the sources; the overflow
bucket holds the next 3 bits of a register. -/
def OVERFLOW_BUCKET_SIZE : Nat := 3

/-- Modelled from the spec: the macro `TOTAL_BUCKET_SIZE` of
primer/hyperloglog_presto.h, which is not among the sources; a register has
7 bits, the dense and the overflow ones. -/
def TOTAL_BUCKET_SIZE : Nat := DENSE_BUCKET_SIZE + OVERFLOW_BUCKET_SIZE

/-- The object state: `dense_bucket_` is the vector of 4-bit bitsets,
`overflow_bucket_` the map from register index to 3-bit bitset (an association
list). -/
structure HyperLogLogPresto where
  dense_bucket_ : List Nat
  overflow_bucket_ : List (Nat × Nat)
  cardinality_ : Nat
  b_ : Nat
  deriving DecidableEq

/-- The lookup `overflow_bucket_.find(idx)`: `none` is `end()`. -/
def ovFind : List (Nat × Nat) → Nat → Option Nat
  | [], _ => none
  | (k, o) :: m, idx => if k = idx then some o else ovFind m idx

/-- The assignment `overflow_bucket_[idx] = o`. -/
def ovAssign : List (Nat × Nat) → Nat → Nat → List (Nat × Nat)
  | [], idx, o => [(idx, o)]
  | (k, x) :: m, idx, o => if k = idx then (k, o) :: m else (k, x) :: ovAssign m idx o

/-- The call `overflow_bucket_.erase(idx)`. -/
def ovErase : List (Nat × Nat) → Nat → List (Nat × Nat)
  | [], _ => []
  | (k, x) :: m, idx => if k = idx then ovErase m idx else (k, x) :: ovErase m idx

/-- The constructor `HyperLogLogPresto(n_leading_bits)` (lines 20-28). -/
def HyperLogLogPresto.create (n_leading_bits : Nat) : HyperLogLogPresto :=
  ⟨List.replicate (1 <<< n_leading_bits) 0, [], 0, n_leading_bits⟩

/-- The method `HyperLogLogPresto::CalcIndex(bset)` (lines 56-62), for
`b_ ≤ BITSET_CAPACITY`. -/
def HyperLogLogPresto.CalcIndex (b_ : Nat) (bset : Nat) : Nat :=
  let mask := ((2 ^ BITSET_CAPACITY - 1) <<< (BITSET_CAPACITY - b_)) % 2 ^ BITSET_CAPACITY
  let extracted := bset &&& mask
  extracted >>> (BITSET_CAPACITY - b_)

/-- The loop of `CalcLeadingZeroes` (lines 66-70) at index `i` with `n`
iterations left (`n` is `BITSET_CAPACITY - b_ - i`); `limit` is what the
function returns after the loop. -/
def HyperLogLogPresto.zeroesLoop (bset limit : Nat) : Nat → Nat → Nat
  | 0, _ => limit
  | n + 1, i =>
    if bset.testBit i then i
    else HyperLogLogPresto.zeroesLoop bset limit n (i + 1)

/-- The method `CalcLeadingZeroes(bset)`. -/
def HyperLogLogPresto.CalcLeadingZeroes (b_ : Nat) (bset : Nat) : Nat :=
  HyperLogLogPresto.zeroesLoop bset (BITSET_CAPACITY - b_) (BITSET_CAPACITY - b_) 0

/-- The method `CalcOverflow(bset)` (lines 74-81) on a 7-bit bitset. -/
def HyperLogLogPresto.CalcOverflow (bset : Nat) : Nat :=
  let mask := ((2 ^ TOTAL_BUCKET_SIZE - 1) <<< DENSE_BUCKET_SIZE) % 2 ^ TOTAL_BUCKET_SIZE
  let extracted := (bset &&& mask) >>> DENSE_BUCKET_SIZE
  extracted % 2 ^ OVERFLOW_BUCKET_SIZE

/-- The method `CalcDense(bset)` (lines 83-89) on a 7-bit bitset. -/
def HyperLogLogPresto.CalcDense (bset : Nat) : Nat :=
  let mask := (2 ^ TOTAL_BUCKET_SIZE - 1) >>> OVERFLOW_BUCKET_SIZE
  let extracted := bset &&& mask
  extracted % 2 ^ DENSE_BUCKET_SIZE

/-- The method `GetRegisterValue(idx)` (lines 113-122); `none` is an access
outside `dense_bucket_`. -/
def HyperLogLogPresto.GetRegisterValue (s : HyperLogLogPresto) (idx : Nat) : Option Nat :=
  match s.dense_bucket_[idx]? with
  | none => none
  | some dense_val =>
    let overflow_val :=
      match ovFind s.overflow_bucket_ idx with
      | some o => o
      | none => 0
    some (dense_val ||| (overflow_val <<< DENSE_BUCKET_SIZE))

/-- The method `SetRegister(idx, value)` (lines 91-111). -/
def HyperLogLogPresto.SetRegister (s : HyperLogLogPresto) (idx value : Nat) :
    Option HyperLogLogPresto :=
  let val_bset := value % 2 ^ TOTAL_BUCKET_SIZE
  let dense_bset := HyperLogLogPresto.CalcDense val_bset
  let overflow_bset := HyperLogLogPresto.CalcOverflow val_bset
  let new_val := dense_bset ||| (overflow_bset <<< DENSE_BUCKET_SIZE)
  match HyperLogLogPresto.GetRegisterValue s idx with
  | none => none
  | some current_val =>
    if current_val > new_val then some s
    else if overflow_bset > 0 then
      some ⟨s.dense_bucket_.set idx dense_bset,
        ovAssign s.overflow_bucket_ idx overflow_bset, s.cardinality_, s.b_⟩
    else
      some ⟨s.dense_bucket_.set idx dense_bset,
        ovErase s.overflow_bucket_ idx, s.cardinality_, s.b_⟩

/-- The method `HyperLogLogPresto::AddElem(val)` (lines 30-39) with
`hash = CalculateHash(val)`; the index is passed as a `uint16_t`. -/
def HyperLogLogPresto.AddElem (s : HyperLogLogPresto) (hash : Nat) :
    Option HyperLogLogPresto :=
  let bset := hash % 2 ^ BITSET_CAPACITY
  let leading_zeroes := HyperLogLogPresto.CalcLeadingZeroes s.b_ bset
  let idx := HyperLogLogPresto.CalcIndex s.b_ bset
  HyperLogLogPresto.SetRegister s (idx % 2 ^ 16) leading_zeroes

/-- The register states an object can be in: the one the constructor builds
and those `SetRegister` produces from them. -/
inductive HyperLogLogPresto.Reachable : HyperLogLogPresto → Prop where
  | create (n_leading_bits : Nat) :
      HyperLogLogPresto.Reachable (HyperLogLogPresto.create n_leading_bits)
  | set {s s1 : HyperLogLogPresto} (idx value : Nat) :
      HyperLogLogPresto.Reachable s → HyperLogLogPresto.SetRegister s idx value = some s1 →
      HyperLogLogPresto.Reachable s1

/-- The bucket invariant of reachable Presto states: dense buckets hold 4
bits, overflow entries hold 3 bits and are never zero. -/
def HyperLogLogPresto.BucketsOK (s : HyperLogLogPresto) : Prop :=
  (∀ d, d ∈ s.dense_bucket_ → d < 16) ∧
  (∀ idx o, ovFind s.overflow_bucket_ idx = some o → 0 < o ∧ o < 8)

/-! ## Maps and heaps -/

theorem mapFind_append (m m2 : List (Char × Nat)) (d : Char) :
    mapFind (m ++ m2) d = (match mapFind m d with
      | some b => some b
      | none => mapFind m2 d) := by
  induction m with
  | nil => simp [mapFind]
  | cons e m ih =>
    obtain ⟨x, y⟩ := e
    by_cases hx : x = d
    · simp [mapFind, hx]
    · simp [mapFind, hx, ih]

theorem mapFind_mapInsert (m : List (Char × Nat)) (c d : Char) (a : Nat)
    (hc : mapFind m c = none) :
    mapFind (mapInsert m c a) d = if d = c then some a else mapFind m d := by
  unfold mapInsert
  rw [hc]
  simp only [mapFind_append]
  by_cases hd : d = c
  · subst hd
    simp [hc, mapFind]
  · have hd2 : ¬ c = d := fun e => hd e.symm
    simp only [mapFind, hd, hd2, if_false]
    cases mapFind m d <;> rfl

theorem mapFind_mapAssign (m : List (Char × Nat)) (c d : Char) (a : Nat) :
    mapFind (mapAssign m c a) d = if d = c then some a else mapFind m d := by
  induction m with
  | nil =>
    by_cases hd : d = c
    · simp [mapAssign, mapFind, hd]
    · have hd2 : ¬ c = d := fun e => hd e.symm
      simp [mapAssign, mapFind, hd, hd2]
  | cons e m ih =>
    obtain ⟨x, y⟩ := e
    by_cases hx : x = c
    · subst hx
      by_cases hd : d = x
      · simp [mapAssign, mapFind, hd]
      · have hd2 : ¬ x = d := fun e => hd e.symm
        simp [mapAssign, mapFind, hd, hd2]
    · by_cases hd : d = c
      · subst hd
        simp [mapAssign, mapFind, hx, ih]
      · by_cases hxd : x = d
        · simp [mapAssign, mapFind, hx, hd, hxd]
        · simp [mapAssign, mapFind, hx, hd, hxd, ih]

theorem heap_lt_of_some {h : Heap} {a : Nat} {n : TrieNode} (e : h[a]? = some n) :
    a < h.length := by
  by_contra hlt
  have : h[a]? = none := List.getElem?_eq_none (Nat.le_of_not_lt hlt)
  rw [this] at e
  cases e

theorem heap_some_of_lt {h : Heap} {a : Nat} (hlt : a < h.length) :
    ∃ n, h[a]? = some n :=
  ⟨h[a], List.getElem?_eq_getElem hlt⟩

theorem heap_append_old (h l : Heap) {a : Nat} (hlt : a < h.length) :
    (h ++ l)[a]? = h[a]? :=
  List.getElem?_append_left hlt

theorem heap_append_new (h : Heap) (n : TrieNode) :
    (h ++ [n])[h.length]? = some n := by
  simp

theorem heap_set_same (h : Heap) {a : Nat} (n : TrieNode) (hlt : a < h.length) :
    (h.set a n)[a]? = some n := by
  simp [List.getElem?_set, hlt]

theorem heap_set_other (h : Heap) {a b : Nat} (n : TrieNode) (hne : b ≠ a) :
    (h.set a n)[b]? = h[b]? := by
  simp [List.getElem?_set, Ne.symm hne]

/-! ## Walks in a well-formed heap -/

theorem path_not_below {p : List Char} {c : Char} : ¬ (p ++ [c]) <+: p := by
  intro hp
  have := hp.length_le
  simp at this

theorem getLoop_path {h : Heap} {path : Nat → List Char} (hw : WF h path) :
    ∀ (cs : List Char) (a b : Nat), a < h.length → getLoop h a cs = some (some b) →
      b < h.length ∧ path b = path a ++ cs := by
  intro cs
  induction cs with
  | nil =>
    intro a b ha e
    simp only [getLoop, Option.some.injEq] at e
    subst e
    simp [ha]
  | cons c cs ih =>
    intro a b ha e
    obtain ⟨n, hn⟩ := heap_some_of_lt ha
    simp only [getLoop, hn] at e
    cases hf : mapFind n.children_ c with
    | none => simp [hf] at e
    | some a1 =>
      simp only [hf] at e
      obtain ⟨h1, h2⟩ := hw a n hn c a1 hf
      obtain ⟨h3, h4⟩ := ih a1 b h1 e
      exact ⟨h3, by rw [h4, h2]; simp⟩

/-- Frame: a read started at `b` only depends on the nodes below `b`. -/
theorem valueAt_frame {h h1 : Heap} {path : Nat → List Char} (hw : WF h path) :
    ∀ (cs : List Char) (b : Nat), b < h.length →
      (∀ (x : Nat) (n : TrieNode), h[x]? = some n → path b <+: path x → h1[x]? = some n) →
      valueAt h1 b cs = valueAt h b cs := by
  intro cs
  induction cs with
  | nil =>
    intro b hb hag
    obtain ⟨n, hn⟩ := heap_some_of_lt hb
    simp [valueAt, hn, hag b n hn (List.prefix_refl _)]
  | cons c cs ih =>
    intro b hb hag
    obtain ⟨n, hn⟩ := heap_some_of_lt hb
    simp only [valueAt, hn, hag b n hn (List.prefix_refl _)]
    cases hf : mapFind n.children_ c with
    | none => rfl
    | some b1 =>
      obtain ⟨h1lt, h2⟩ := hw b n hn c b1 hf
      simp only []
      apply ih b1 h1lt
      intro x m hx hpre
      apply hag x m hx
      rw [h2] at hpre
      exact List.IsPrefix.trans (List.prefix_append _ _) hpre

/-- A heap that keeps every old node reads like the old heap at old nodes. -/
theorem valueAt_keep {h h1 : Heap} {path : Nat → List Char} (hw : WF h path)
    (hag : ∀ (x : Nat) (n : TrieNode), h[x]? = some n → h1[x]? = some n) (cs : List Char) (b : Nat)
    (hb : b < h.length) : valueAt h1 b cs = valueAt h b cs :=
  valueAt_frame hw cs b hb (fun x n hx _ => hag x n hx)

/-- Edit at one node `x` reached from `a` along `ks`: reads that pass through
`x` continue from `x` in the new heap, all other reads are unchanged. -/
theorem valueAt_edit {h h1 : Heap} {path : Nat → List Char} (hw : WF h path) (x : Nat)
    (hag : ∀ (b : Nat) (n : TrieNode), h[b]? = some n → b ≠ x → h1[b]? = some n) :
    ∀ (ks : List Char) (a : Nat), a < h.length → getLoop h a ks = some (some x) →
      (∀ ext, valueAt h1 a (ks ++ ext) = valueAt h1 x ext) ∧
      (∀ cs, ¬ ks <+: cs → valueAt h1 a cs = valueAt h a cs) := by
  intro ks
  induction ks with
  | nil =>
    intro a ha e
    simp only [getLoop, Option.some.injEq] at e
    subst e
    exact ⟨fun ext => rfl, fun cs hcs => absurd List.nil_prefix hcs⟩
  | cons k0 ks ih =>
    intro a ha e
    obtain ⟨n, hn⟩ := heap_some_of_lt ha
    have hpx := (getLoop_path hw (k0 :: ks) a x ha e).2
    simp only [getLoop, hn] at e
    cases hf : mapFind n.children_ k0 with
    | none => simp [hf] at e
    | some a1 =>
      simp only [hf] at e
      obtain ⟨ha1, hp1⟩ := hw a n hn k0 a1 hf
      have hax : a ≠ x := by
        intro hEq
        rw [← hEq] at hpx
        have := congrArg List.length hpx
        simp at this
      have hn1 : h1[a]? = some n := hag a n hn hax
      obtain ⟨ih1, ih2⟩ := ih a1 ha1 e
      refine ⟨?_, ?_⟩
      · intro ext
        simp only [List.cons_append, valueAt, hn1, hf]
        exact ih1 ext
      · intro cs hcs
        cases cs with
        | nil => simp [valueAt, hn, hn1]
        | cons c cs =>
          simp only [valueAt, hn, hn1]
          cases hfc : mapFind n.children_ c with
          | none => rfl
          | some b =>
            simp only []
            by_cases hc : c = k0
            · subst hc
              rw [hf] at hfc
              cases hfc
              apply ih2
              intro hpre
              exact hcs (List.cons_prefix_cons.mpr ⟨rfl, hpre⟩)
            · obtain ⟨hb, hpb⟩ := hw a n hn c b hfc
              apply valueAt_frame hw cs b hb
              intro y m hy hpre
              apply hag y m hy
              intro hyx
              rw [hyx, hpx, hpb] at hpre
              have h3 : [c] <+: k0 :: ks := by
                have := (List.prefix_append_right_inj (path a)).mp hpre
                exact this
              have := List.cons_prefix_cons.mp h3
              exact hc this.1

/-! ## The two stores: in place, and by relinking the parent -/

theorem heap_alloc_set_cases {h : Heap} {p a : Nat} {m q x : TrieNode} (hp : p < h.length)
    (e : ((h ++ [m]).set p q)[a]? = some x) :
    (a = p ∧ x = q) ∨ (a ≠ p ∧ a < h.length ∧ h[a]? = some x) ∨
      (a ≠ p ∧ a = h.length ∧ x = m) := by
  by_cases hap : a = p
  · subst hap
    rw [heap_set_same _ _ (by simp; omega)] at e
    exact Or.inl ⟨rfl, (Option.some.inj e).symm⟩
  · rw [heap_set_other _ _ hap] at e
    have hlt := heap_lt_of_some e
    simp only [List.length_append, List.length_singleton] at hlt
    by_cases hal : a < h.length
    · rw [heap_append_old _ _ hal] at e
      exact Or.inr (Or.inl ⟨hap, hal, e⟩)
    · have hae : a = h.length := by omega
      subst hae
      rw [heap_append_new] at e
      exact Or.inr (Or.inr ⟨hap, rfl, (Option.some.inj e).symm⟩)

theorem heap_alloc_cases {h : Heap} {a : Nat} {m x : TrieNode}
    (e : (h ++ [m])[a]? = some x) :
    (a < h.length ∧ h[a]? = some x) ∨ (a = h.length ∧ x = m) := by
  have hlt := heap_lt_of_some e
  simp only [List.length_append, List.length_singleton] at hlt
  by_cases hal : a < h.length
  · rw [heap_append_old _ _ hal] at e
    exact Or.inl ⟨hal, e⟩
  · have hae : a = h.length := by omega
    subst hae
    rw [heap_append_new] at e
    exact Or.inr ⟨rfl, (Option.some.inj e).symm⟩

theorem WF_store {h : Heap} {path : Nat → List Char} (hw : WF h path) {tgt : Nat}
    {n : TrieNode} (hn : h[tgt]? = some n) (v : Option Value) :
    WF (h.set tgt ⟨n.children_, v⟩) path := by
  intro a x hx c b hf
  rw [List.length_set]
  by_cases hat : a = tgt
  · subst hat
    rw [heap_set_same _ _ (heap_lt_of_some hn)] at hx
    cases hx
    exact hw a n hn c b hf
  · rw [heap_set_other _ _ hat] at hx
    exact hw a x hx c b hf

theorem WF_alloc {h : Heap} {path : Nat → List Char} (hw : WF h path) (m : TrieNode)
    (q : List Char)
    (hm : ∀ c b, mapFind m.children_ c = some b → b < h.length ∧ path b = q ++ [c]) :
    WF (h ++ [m]) (Function.update path h.length q) := by
  intro a x hx c b hf
  simp only [List.length_append, List.length_singleton]
  rcases heap_alloc_cases hx with ⟨hal, hax⟩ | ⟨hal, hxm⟩
  · obtain ⟨hb, hpb⟩ := hw a x hax c b hf
    refine ⟨by omega, ?_⟩
    rw [Function.update_noteq (by omega), Function.update_noteq (by omega)]
    exact hpb
  · subst hal
    subst hxm
    obtain ⟨hb, hpb⟩ := hm c b hf
    refine ⟨by omega, ?_⟩
    rw [Function.update_noteq (by omega), Function.update_same]
    exact hpb

theorem WF_relink {h : Heap} {path : Nat → List Char} (hw : WF h path) {p tgt : Nat}
    {pn n : TrieNode} {last : Char} (hpn : h[p]? = some pn)
    (hl : mapFind pn.children_ last = some tgt) (hn : h[tgt]? = some n) (v : Option Value) :
    WF ((h ++ [TrieNode.mk n.children_ v]).set p
        ⟨mapAssign pn.children_ last h.length, pn.value_⟩)
      (Function.update path h.length (path tgt)) := by
  have hp := heap_lt_of_some hpn
  obtain ⟨_, hpt⟩ := hw p pn hpn last tgt hl
  intro a x hx c b hf
  simp only [List.length_set, List.length_append, List.length_singleton]
  rcases heap_alloc_set_cases hp hx with ⟨hap, hxq⟩ | ⟨hap, hal, hax⟩ | ⟨hap, hal, hxm⟩
  · subst hap
    subst hxq
    simp only [mapFind_mapAssign] at hf
    have hua : Function.update path h.length (path tgt) a = path a :=
      Function.update_noteq (by omega) _ _
    rw [hua]
    by_cases hc : c = last
    · subst hc
      simp only [if_true, Option.some.injEq] at hf
      subst hf
      rw [Function.update_same]
      exact ⟨by omega, hpt⟩
    · simp only [hc, if_false] at hf
      obtain ⟨hb, hpb⟩ := hw a pn hpn c b hf
      refine ⟨by omega, ?_⟩
      rw [Function.update_noteq (by omega)]
      exact hpb
  · obtain ⟨hb, hpb⟩ := hw a x hax c b hf
    refine ⟨by omega, ?_⟩
    rw [Function.update_noteq (by omega), Function.update_noteq (by omega)]
    exact hpb
  · subst hal
    subst hxm
    obtain ⟨hb, hpb⟩ := hw tgt n hn c b hf
    refine ⟨by omega, ?_⟩
    rw [Function.update_noteq (by omega), Function.update_same]
    exact hpb

theorem WF_insert {h : Heap} {path : Nat → List Char} (hw : WF h path) {next : Nat}
    {n : TrieNode} {c : Char} (hn : h[next]? = some n)
    (hc : mapFind n.children_ c = none) :
    WF ((h ++ [TrieNode.mk [] none]).set next ⟨mapInsert n.children_ c h.length, n.value_⟩)
      (Function.update path h.length (path next ++ [c])) := by
  have hp := heap_lt_of_some hn
  intro a x hx d b hf
  simp only [List.length_set, List.length_append, List.length_singleton]
  rcases heap_alloc_set_cases hp hx with ⟨hap, hxq⟩ | ⟨hap, hal, hax⟩ | ⟨hap, hal, hxm⟩
  · subst hap
    subst hxq
    simp only [mapFind_mapInsert _ _ _ _ hc] at hf
    have hua : Function.update path h.length (path a ++ [c]) a = path a :=
      Function.update_noteq (by omega) _ _
    rw [hua]
    by_cases hd : d = c
    · subst hd
      simp only [if_true, Option.some.injEq] at hf
      subst hf
      rw [Function.update_same]
      exact ⟨by omega, rfl⟩
    · simp only [hd, if_false] at hf
      obtain ⟨hb, hpb⟩ := hw a n hn d b hf
      refine ⟨by omega, ?_⟩
      rw [Function.update_noteq (by omega)]
      exact hpb
  · obtain ⟨hb, hpb⟩ := hw a x hax d b hf
    refine ⟨by omega, ?_⟩
    rw [Function.update_noteq (by omega), Function.update_noteq (by omega)]
    exact hpb
  · subst hxm
    simp [mapFind] at hf

theorem valueAt_store {h : Heap} {path : Nat → List Char} (hw : WF h path) {a tgt : Nat}
    {n : TrieNode} (ks : List Char) (ha : a < h.length)
    (hg : getLoop h a ks = some (some tgt)) (hn : h[tgt]? = some n) (v : Option Value)
    (cs : List Char) :
    valueAt (h.set tgt ⟨n.children_, v⟩) a cs
      = if cs = ks then some v else valueAt h a cs := by
  have ht := heap_lt_of_some hn
  obtain ⟨e1, e2⟩ := @valueAt_edit h (h.set tgt ⟨n.children_, v⟩) path hw tgt
    (fun b m hb hne => by rw [heap_set_other _ _ hne]; exact hb) ks a ha hg
  obtain ⟨f1, _⟩ := @valueAt_edit h h path hw tgt (fun b m hb _ => hb) ks a ha hg
  by_cases hpre : ks <+: cs
  · obtain ⟨ext, rfl⟩ := hpre
    rw [e1, f1]
    cases ext with
    | nil => simp [valueAt, heap_set_same _ _ ht]
    | cons c ext =>
      simp only [valueAt, heap_set_same _ _ ht, hn]
      have hne : ¬ (ks ++ c :: ext = ks) := by
        intro hEq
        have := congrArg List.length hEq
        simp at this
      rw [if_neg hne]
      cases hf : mapFind n.children_ c with
      | none => rfl
      | some b =>
        obtain ⟨hb, hpb⟩ := hw tgt n hn c b hf
        simp only []
        apply valueAt_frame hw ext b hb
        intro y m hy hbelow
        rw [heap_set_other _ _ ?_]
        · exact hy
        · intro hyt
          rw [hyt, hpb] at hbelow
          exact path_not_below hbelow
  · have hne : ¬ (cs = ks) := by
      intro hEq
      exact hpre (hEq ▸ List.prefix_refl _)
    rw [if_neg hne]
    exact e2 cs hpre

theorem valueAt_relink {h : Heap} {path : Nat → List Char} (hw : WF h path) {a p tgt : Nat}
    {pn n : TrieNode} (ks : List Char) (last : Char) (ha : a < h.length)
    (hg : getLoop h a ks = some (some p)) (hpn : h[p]? = some pn)
    (hl : mapFind pn.children_ last = some tgt) (hn : h[tgt]? = some n) (v : Option Value)
    (cs : List Char) :
    valueAt ((h ++ [TrieNode.mk n.children_ v]).set p
        ⟨mapAssign pn.children_ last h.length, pn.value_⟩) a cs
      = if cs = ks ++ [last] then some v else valueAt h a cs := by
  have hp := heap_lt_of_some hpn
  have hp1 : p < (h ++ [TrieNode.mk n.children_ v]).length := by simp; omega
  have hkeep : ∀ (b : Nat) (m : TrieNode), h[b]? = some m → b ≠ p →
      ((h ++ [TrieNode.mk n.children_ v]).set p
        ⟨mapAssign pn.children_ last h.length, pn.value_⟩)[b]? = some m := by
    intro b m hb hne
    rw [heap_set_other _ _ hne, heap_append_old _ _ (heap_lt_of_some hb)]
    exact hb
  have hnew : ((h ++ [TrieNode.mk n.children_ v]).set p
        ⟨mapAssign pn.children_ last h.length, pn.value_⟩)[h.length]?
      = some (TrieNode.mk n.children_ v) := by
    rw [heap_set_other _ _ (by omega), heap_append_new]
  obtain ⟨hpt1, hpt⟩ := hw p pn hpn last tgt hl
  obtain ⟨e1, e2⟩ := valueAt_edit hw p hkeep ks a ha hg
  obtain ⟨f1, _⟩ := @valueAt_edit h h path hw p (fun b m hb _ => hb) ks a ha hg
  by_cases hpre : ks <+: cs
  · obtain ⟨ext, rfl⟩ := hpre
    rw [e1, f1]
    cases ext with
    | nil =>
      have hne : ¬ (ks ++ [] = ks ++ [last]) := by
        intro hEq
        have := congrArg List.length hEq
        simp at this
      rw [if_neg hne]
      simp [valueAt, heap_set_same _ _ hp1, hpn]
    | cons c ext =>
      simp only [valueAt, heap_set_same _ _ hp1, hpn, mapFind_mapAssign]
      by_cases hc : c = last
      · subst hc
        simp only [if_true, hl]
        cases ext with
        | nil => simp [valueAt, hnew]
        | cons c2 ext =>
          have hne : ¬ (ks ++ c :: c2 :: ext = ks ++ [c]) := by
            intro hEq
            have := congrArg List.length hEq
            simp at this
          rw [if_neg hne]
          simp only [valueAt, hnew, hn]
          cases hf : mapFind n.children_ c2 with
          | none => rfl
          | some b2 =>
            obtain ⟨hb, hpb⟩ := hw tgt n hn c2 b2 hf
            simp only []
            apply valueAt_frame hw ext b2 hb
            intro y m hy hbelow
            apply hkeep y m hy
            intro hyp
            rw [hyp, hpb, hpt] at hbelow
            have := hbelow.length_le
            simp at this
      · have hne : ¬ (ks ++ c :: ext = ks ++ [last]) := by
          intro hEq
          have := List.append_cancel_left hEq
          simp only [List.cons.injEq] at this
          exact hc this.1
        rw [if_neg hne]
        simp only [hc, if_false]
        cases hf : mapFind pn.children_ c with
        | none => rfl
        | some b =>
          obtain ⟨hb, hpb⟩ := hw p pn hpn c b hf
          simp only []
          apply valueAt_frame hw ext b hb
          intro y m hy hbelow
          apply hkeep y m hy
          intro hyp
          rw [hyp, hpb] at hbelow
          exact path_not_below hbelow
  · have hne : ¬ (cs = ks ++ [last]) := by
      intro hEq
      exact hpre (hEq ▸ List.prefix_append _ _)
    rw [if_neg hne]
    exact e2 cs hpre

/-- Inserting a fresh, empty child changes no read. -/
theorem valueAt_insert {h : Heap} {path : Nat → List Char} (hw : WF h path) {next : Nat}
    {n : TrieNode} {c : Char} (hn : h[next]? = some n)
    (hc : mapFind n.children_ c = none) :
    ∀ (cs : List Char) (a : Nat), a < h.length →
      valueAt ((h ++ [TrieNode.mk [] none]).set next
        ⟨mapInsert n.children_ c h.length, n.value_⟩) a cs = valueAt h a cs := by
  have hp := heap_lt_of_some hn
  have hp1 : next < (h ++ [TrieNode.mk [] none]).length := by simp; omega
  have hnew : ((h ++ [TrieNode.mk [] none]).set next
        ⟨mapInsert n.children_ c h.length, n.value_⟩)[h.length]?
      = some (TrieNode.mk [] none) := by
    rw [heap_set_other _ _ (by omega), heap_append_new]
  intro cs
  induction cs with
  | nil =>
    intro a ha
    obtain ⟨m, hm⟩ := heap_some_of_lt ha
    by_cases han : a = next
    · subst han
      rw [hn] at hm
      cases hm
      simp [valueAt, heap_set_same _ _ hp1, hn]
    · simp [valueAt, heap_set_other _ _ han, heap_append_old _ _ ha, hm]
  | cons d cs ih =>
    intro a ha
    obtain ⟨m, hm⟩ := heap_some_of_lt ha
    by_cases han : a = next
    · subst han
      rw [hn] at hm
      cases hm
      simp only [valueAt, heap_set_same _ _ hp1, hn, mapFind_mapInsert _ _ _ _ hc]
      by_cases hd : d = c
      · subst hd
        simp only [if_true, hc]
        cases cs with
        | nil => simp [valueAt, hnew]
        | cons d2 cs => simp [valueAt, hnew, mapFind]
      · simp only [hd, if_false]
        cases hf : mapFind n.children_ d with
        | none => rfl
        | some b => exact ih b (hw a n hn d b hf).1
    · simp only [valueAt, heap_set_other _ _ han, heap_append_old _ _ ha, hm]
      cases hf : mapFind m.children_ d with
      | none => rfl
      | some b => exact ih b (hw a m hm d b hf).1

/-! ## The loop of Put -/

theorem putLoop_nil (h : Heap) (next : Nat) (parent : Option Nat) :
    putLoop h next parent [] = some (h, next, parent) := rfl

theorem putLoop_cons_some {h : Heap} {next child : Nat} {n : TrieNode} {c : Char}
    (parent : Option Nat) (cs : List Char) (hn : h[next]? = some n)
    (hc : mapFind n.children_ c = some child) :
    putLoop h next parent (c :: cs) = putLoop h child (some next) cs := by
  simp only [putLoop, hn, hc]

theorem putLoop_cons_none {h : Heap} {next : Nat} {n : TrieNode} {c : Char}
    (parent : Option Nat) (cs : List Char) (hn : h[next]? = some n)
    (hc : mapFind n.children_ c = none) :
    putLoop h next parent (c :: cs)
      = putLoop ((h ++ [TrieNode.mk [] none]).set next
          ⟨mapInsert n.children_ c h.length, n.value_⟩) h.length (some next) cs := by
  have hp := heap_lt_of_some hn
  have hp1 : next < (h ++ [TrieNode.mk [] none]).length := by simp; omega
  simp only [putLoop, hn, hc, heap_set_same _ _ hp1, mapFind_mapInsert _ _ _ _ hc, if_true]

/-- One iteration of the loop of Put. -/
theorem putLoop_step {h : Heap} {path : Nat → List Char} (hw : WF h path) {next : Nat}
    (hlt : next < h.length) (parent : Option Nat) (c : Char) (cs : List Char) :
    ∃ (h1 : Heap) (path1 : Nat → List Char) (child : Nat) (n1 : TrieNode),
      putLoop h next parent (c :: cs) = putLoop h1 child (some next) cs ∧
      WF h1 path1 ∧ h.length ≤ h1.length ∧ child < h1.length ∧
      (∀ a, a < h.length → path1 a = path a) ∧
      (∀ x, x < h.length → x ≠ next → h1[x]? = h[x]?) ∧
      (∀ a, a < h.length → ∀ cs2, valueAt h1 a cs2 = valueAt h a cs2) ∧
      h1[next]? = some n1 ∧ mapFind n1.children_ c = some child ∧
      path1 child = path next ++ [c] := by
  obtain ⟨n, hn⟩ := heap_some_of_lt hlt
  cases hc : mapFind n.children_ c with
  | some child =>
    obtain ⟨hb, hpb⟩ := hw next n hn c child hc
    exact ⟨h, path, child, n, putLoop_cons_some parent cs hn hc, hw, le_refl _, hb,
      fun a _ => rfl, fun x _ _ => rfl, fun a _ cs2 => rfl, hn, hc, hpb⟩
  | none =>
    have hp1 : next < (h ++ [TrieNode.mk [] none]).length := by simp; omega
    refine ⟨(h ++ [TrieNode.mk [] none]).set next ⟨mapInsert n.children_ c h.length, n.value_⟩,
      Function.update path h.length (path next ++ [c]), h.length,
      ⟨mapInsert n.children_ c h.length, n.value_⟩,
      putLoop_cons_none parent cs hn hc, WF_insert hw hn hc, by simp, by simp, ?_, ?_, ?_,
      heap_set_same _ _ hp1, ?_, ?_⟩
    · intro a ha
      exact Function.update_noteq (by omega) _ _
    · intro x hx hne
      rw [heap_set_other _ _ hne, heap_append_old _ _ hx]
    · intro a ha cs2
      exact valueAt_insert hw hn hc cs2 a ha
    · simp [mapFind_mapInsert _ _ _ _ hc]
    · exact Function.update_same _ _ _

/-- The loop of Put from a valid node: it returns, keeps the heap well formed,
changes no read, and ends at the node spelled by the key below `next`, with
`parent` the node just above it. -/
theorem putLoop_spec : ∀ (cs : List Char) (h : Heap) (path : Nat → List Char) (next : Nat)
    (parent : Option Nat), WF h path → next < h.length →
    ∃ (h1 : Heap) (tgt : Nat) (par : Option Nat) (path1 : Nat → List Char),
      putLoop h next parent cs = some (h1, tgt, par) ∧
      WF h1 path1 ∧ h.length ≤ h1.length ∧
      (∀ a, a < h.length → path1 a = path a) ∧
      (∀ x, x < h.length → ¬ (path next <+: path x) → h1[x]? = h[x]?) ∧
      (∀ a, a < h.length → ∀ cs2, valueAt h1 a cs2 = valueAt h a cs2) ∧
      getLoop h1 next cs = some (some tgt) ∧
      (cs = [] → par = parent) ∧
      (∀ init last, cs = init ++ [last] → ∃ (p : Nat) (pn : TrieNode), par = some p ∧
        getLoop h1 next init = some (some p) ∧ h1[p]? = some pn ∧
        mapFind pn.children_ last = some tgt) := by
  intro cs
  induction cs with
  | nil =>
    intro h path next parent hw hlt
    refine ⟨h, next, parent, path, rfl, hw, le_refl _, fun a _ => rfl, fun x _ _ => rfl,
      fun a _ cs2 => rfl, rfl, fun _ => rfl, ?_⟩
    intro init last hEq
    simp at hEq
  | cons c cs ih =>
    intro h path next parent hw hlt
    obtain ⟨h1, path1, child, n1, hstep, hw1, hlen1, hchild, hag1, hfr1, hval1, hn1, hc1, hpc⟩ :=
      putLoop_step hw hlt parent c cs
    obtain ⟨h2, tgt, par, path2, hrun, hw2, hlen2, hag2, hfr2, hval2, hget2, hnil2, hpar2⟩ :=
      ih h1 path1 child (some next) hw1 hchild
    have hlt1 : next < h1.length := by omega
    have hpn1 : path1 next = path next := hag1 next hlt
    have hnext2 : h2[next]? = some n1 := by
      rw [hfr2 next hlt1 ?_]
      · exact hn1
      · rw [hpc, hpn1]
        exact path_not_below
    refine ⟨h2, tgt, par, path2, hstep.trans hrun, hw2, by omega, ?_, ?_, ?_, ?_, ?_, ?_⟩
    · intro a ha
      rw [hag2 a (by omega), hag1 a ha]
    · intro x hx hnb
      have hxn : x ≠ next := by
        intro hEq
        exact hnb (hEq ▸ List.prefix_refl _)
      rw [hfr2 x (by omega) ?_, hfr1 x hx hxn]
      rw [hpc, hag1 x hx]
      intro hpre
      exact hnb (List.IsPrefix.trans (List.prefix_append _ _) hpre)
    · intro a ha cs2
      rw [hval2 a (by omega) cs2, hval1 a ha cs2]
    · simp only [getLoop, hnext2, hc1]
      exact hget2
    · intro hEq
      cases hEq
    · intro init last hEq
      cases init with
      | nil =>
        simp only [List.nil_append, List.cons.injEq] at hEq
        obtain ⟨hcl, hcs⟩ := hEq
        subst hcl
        subst hcs
        simp only [getLoop, Option.some.injEq] at hget2
        subst hget2
        exact ⟨next, n1, hnil2 rfl, rfl, hnext2, hc1⟩
      | cons i init =>
        simp only [List.cons_append, List.cons.injEq] at hEq
        obtain ⟨hci, hcs⟩ := hEq
        subst hci
        obtain ⟨p, pn, hp1, hp2, hp3, hp4⟩ := hpar2 init last hcs
        refine ⟨p, pn, hp1, ?_, hp3, hp4⟩
        simp only [getLoop, hnext2, hc1]
        exact hp2

/-! ## Put as a whole -/

theorem valueAt_of_empty {h : Heap} {a : Nat} (ha : h[a]? = some (TrieNode.mk [] none))
    (cs : List Char) : valueAt h a cs = some none := by
  cases cs with
  | nil => simp [valueAt, ha]
  | cons c cs => simp [valueAt, ha, mapFind]

theorem valueAt_of_copy {h : Heap} {path : Nat → List Char} (hw : WF h path) {r : Nat}
    {n : TrieNode} (hn : h[r]? = some n) (cs : List Char) :
    valueAt (h ++ [n]) h.length cs = valueAt h r cs := by
  have hkeep : ∀ (x : Nat) (m : TrieNode), h[x]? = some m → (h ++ [n])[x]? = some m := by
    intro x m hx
    rw [heap_append_old _ _ (heap_lt_of_some hx)]
    exact hx
  cases cs with
  | nil => simp [valueAt, hn]
  | cons c cs =>
    simp only [valueAt, heap_append_new, hn]
    cases hf : mapFind n.children_ c with
    | none => rfl
    | some b => exact valueAt_keep hw hkeep cs b (hw r n hn c b hf).1

theorem normKey_ne_nil (key : List Char) : normKey key ≠ [] := by
  unfold normKey
  by_cases hk : key = []
  · simp [hk]
  · simp [hk]

theorem putStore_spec {h : Heap} {path : Nat → List Char} (hw : WF h path) {a tgt : Nat}
    {par : Option Nat} (key : List Char) (hk : key ≠ []) (ha : a < h.length)
    (hg : getLoop h a key = some (some tgt))
    (hpar : ∀ init last, key = init ++ [last] → ∃ (p : Nat) (pn : TrieNode), par = some p ∧
      getLoop h a init = some (some p) ∧ h[p]? = some pn ∧
      mapFind pn.children_ last = some tgt) (v : Value) :
    ∃ (h2 : Heap) (path2 : Nat → List Char), putStore h tgt par key v = some h2 ∧
      WF h2 path2 ∧ h.length ≤ h2.length ∧ (∀ x, x < h.length → path2 x = path x) ∧
      ∀ cs, valueAt h2 a cs = if cs = key then some (some v) else valueAt h a cs := by
  obtain ⟨htl, _⟩ := getLoop_path hw key a tgt ha hg
  obtain ⟨n, hn⟩ := heap_some_of_lt htl
  by_cases hcast : castsTo n v.ty = true
  · refine ⟨h.set tgt ⟨n.children_, some v⟩, path, ?_, WF_store hw hn _, by simp,
      fun x _ => rfl, ?_⟩
    · simp [putStore, hn, hcast]
    · intro cs
      exact valueAt_store hw key ha hg hn (some v) cs
  · obtain ⟨init, last, hkey⟩ : ∃ init last, key = init ++ [last] :=
      ⟨key.dropLast, key.getLast hk, (List.dropLast_append_getLast hk).symm⟩
    obtain ⟨p, pn, hp1, hp2, hp3, hp4⟩ := hpar init last hkey
    have hpl := heap_lt_of_some hp3
    have hlast : key.getLast? = some last := by
      rw [hkey]
      simp
    refine ⟨(h ++ [TrieNode.mk n.children_ (some v)]).set p
        ⟨mapAssign pn.children_ last h.length, pn.value_⟩,
      Function.update path h.length (path tgt), ?_, WF_relink hw hp3 hp4 hn _, by simp,
      fun x hx => Function.update_noteq (by omega) _ _, ?_⟩
    · simp only [putStore, hn, hcast, hp1, hlast, heap_append_old _ _ hpl, hp3]
      simp
    · intro cs
      rw [hkey]
      exact valueAt_relink hw init last ha hp2 hp3 hp4 hn (some v) cs

/-- Specification of Put on a well-formed heap: it returns a new root, keeps
the heap well formed, and the new version reads `value` at the key and what
the receiver read everywhere else. -/
theorem Put_spec {h : Heap} {path : Nat → List Char} (hw : WF h path) (t : Trie)
    (ht : RootOK h path t) (key : List Char) (v : Value) :
    ∃ (h2 : Heap) (r2 : Nat) (path2 : Nat → List Char),
      Put h t key v = some (h2, ⟨some r2⟩) ∧ WF h2 path2 ∧ h.length ≤ h2.length ∧
      (∀ x, x < h.length → path2 x = path x) ∧ r2 < h2.length ∧ path2 r2 = [] ∧
      ∀ cs, valueAt h2 r2 cs
        = if cs = normKey key then some (some v) else slotOf h t cs := by
  -- the clone
  have hclone : ∃ (h0 : Heap) (path0 : Nat → List Char),
      (match t.root_ with
        | none => some (h ++ [TrieNode.mk [] none], (⟨some h.length⟩ : Trie))
        | some _ => Trie.Clone h t) = some (h0, ⟨some h.length⟩) ∧
      WF h0 path0 ∧ h0.length = h.length + 1 ∧ (∀ x, x < h.length → path0 x = path x) ∧
      path0 h.length = [] ∧ ∀ cs, valueAt h0 h.length cs = slotOf h t cs := by
    cases hr : t.root_ with
    | none =>
      refine ⟨h ++ [TrieNode.mk [] none], Function.update path h.length [], rfl,
        WF_alloc hw _ _ ?_, by simp, fun x hx => Function.update_noteq (by omega) _ _,
        Function.update_same _ _ _, ?_⟩
      · intro c b hf
        simp [mapFind] at hf
      · intro cs
        simp only [slotOf, hr]
        exact valueAt_of_empty (heap_append_new _ _) cs
    | some r =>
      obtain ⟨hrl, hpr⟩ := ht r hr
      obtain ⟨n, hn⟩ := heap_some_of_lt hrl
      refine ⟨h ++ [n], Function.update path h.length [], ?_,
        WF_alloc hw _ _ ?_, by simp, fun x hx => Function.update_noteq (by omega) _ _,
        Function.update_same _ _ _, ?_⟩
      · simp [Trie.Clone, hr, hn]
      · intro c b hf
        have := hw r n hn c b hf
        rw [hpr] at this
        exact this
      · intro cs
        simp only [slotOf, hr]
        exact valueAt_of_copy hw hn cs
  obtain ⟨h0, path0, hcl, hw0, hlen0, hag0, hroot0, hval0⟩ := hclone
  have hr0 : h.length < h0.length := by omega
  obtain ⟨h1, tgt, par, path1, hrun, hw1, hlen1, hag1, _, hval1, hget1, _, hpar1⟩ :=
    putLoop_spec (normKey key) h0 path0 h.length none hw0 hr0
  have hr1 : h.length < h1.length := by omega
  obtain ⟨h2, path2, hst, hw2, hlen2, hag2, hval2⟩ :=
    putStore_spec hw1 (normKey key) (normKey_ne_nil key) hr1 hget1 hpar1 v
  refine ⟨h2, h.length, path2, ?_, hw2, by omega, ?_, by omega, ?_, ?_⟩
  · unfold normKey at hrun hst
    simp only [Put, hcl, hrun, hst]
  · intro x hx
    rw [hag2 x (by omega), hag1 x (by omega), hag0 x hx]
  · rw [hag2 _ hr1, hag1 _ hr0, hroot0]
  · intro cs
    rw [hval2 cs, hval1 _ hr0 cs, hval0 cs]

/-! ## Remove as a whole -/

theorem getLoop_total {h : Heap} {path : Nat → List Char} (hw : WF h path) :
    ∀ (cs : List Char) (a : Nat), a < h.length → ∃ r, getLoop h a cs = some r := by
  intro cs
  induction cs with
  | nil => exact fun a _ => ⟨some a, rfl⟩
  | cons c cs ih =>
    intro a ha
    obtain ⟨n, hn⟩ := heap_some_of_lt ha
    simp only [getLoop, hn]
    cases hf : mapFind n.children_ c with
    | none => exact ⟨none, rfl⟩
    | some b => exact ih b (hw a n hn c b hf).1

theorem valueAt_eq_getLoop : ∀ (cs : List Char) (h : Heap) (a : Nat),
    valueAt h a cs = (match getLoop h a cs with
      | none => none
      | some none => some none
      | some (some b) =>
        match h[b]? with
        | none => none
        | some n => some n.value_) := by
  intro cs
  induction cs with
  | nil => intro h a; simp [valueAt, getLoop]
  | cons c cs ih =>
    intro h a
    simp only [valueAt, getLoop]
    cases h[a]? with
    | none => rfl
    | some n =>
      simp only []
      cases mapFind n.children_ c with
      | none => rfl
      | some b => exact ih h b

theorem removeLoop_spec : ∀ (cs : List Char) (h : Heap) (next : Nat) (parent : Option Nat),
    (getLoop h next cs = none → removeLoop h next parent cs = none) ∧
    (getLoop h next cs = some none → removeLoop h next parent cs = some none) ∧
    (∀ tgt, getLoop h next cs = some (some tgt) →
      ∃ par, removeLoop h next parent cs = some (some (tgt, par)) ∧
        (cs = [] → par = parent) ∧
        (∀ init last, cs = init ++ [last] → ∃ (p : Nat) (pn : TrieNode), par = some p ∧
          getLoop h next init = some (some p) ∧ h[p]? = some pn ∧
          mapFind pn.children_ last = some tgt)) := by
  intro cs
  induction cs with
  | nil =>
    intro h next parent
    refine ⟨fun e => by simp [getLoop] at e, fun e => by simp [getLoop] at e, ?_⟩
    intro tgt e
    simp only [getLoop, Option.some.injEq] at e
    subst e
    refine ⟨parent, rfl, fun _ => rfl, ?_⟩
    intro init last hEq
    simp at hEq
  | cons c cs ih =>
    intro h next parent
    simp only [getLoop, removeLoop]
    cases hn : h[next]? with
    | none => simp
    | some n =>
      simp only []
      cases hc : mapFind n.children_ c with
      | none => simp
      | some child =>
        simp only []
        obtain ⟨i1, i2, i3⟩ := ih h child (some next)
        refine ⟨i1, i2, ?_⟩
        intro tgt e
        obtain ⟨par, hp1, hp2, hp3⟩ := i3 tgt e
        refine ⟨par, hp1, fun hEq => absurd hEq (List.cons_ne_nil _ _), ?_⟩
        intro init last hEq
        cases init with
        | nil =>
          simp only [List.nil_append, List.cons.injEq] at hEq
          obtain ⟨hcl, hcs⟩ := hEq
          subst hcl
          subst hcs
          simp only [getLoop, Option.some.injEq] at e
          subst e
          exact ⟨next, n, hp2 rfl, rfl, hn, hc⟩
        | cons i init =>
          simp only [List.cons_append, List.cons.injEq] at hEq
          obtain ⟨hci, hcs⟩ := hEq
          subst hci
          obtain ⟨p, pn, q1, q2, q3, q4⟩ := hp3 init last hcs
          refine ⟨p, pn, q1, ?_, q3, q4⟩
          simp only [getLoop, hn, hc]
          exact q2

/-- Specification of Remove for a non-empty key on a well-formed heap: it
returns, keeps the heap well formed, and the result reads nothing at the key
and what the receiver read everywhere else. -/
theorem Remove_spec {h : Heap} {path : Nat → List Char} (hw : WF h path) (t : Trie)
    (ht : RootOK h path t) (key : List Char) (hk : key ≠ []) :
    ∃ (h2 : Heap) (t2 : Trie) (path2 : Nat → List Char),
      Remove h t key = some (h2, t2) ∧ WF h2 path2 ∧ h.length ≤ h2.length ∧
      (∀ x, x < h.length → path2 x = path x) ∧ RootOK h2 path2 t2 ∧
      ∀ cs, slotOf h2 t2 cs = if cs = key then some none else slotOf h t cs := by
  cases hr : t.root_ with
  | none =>
    refine ⟨h, t, path, by simp [Remove, hr], hw, le_refl _, fun x _ => rfl, ht, ?_⟩
    intro cs
    simp only [slotOf, hr]
    split <;> rfl
  | some r =>
    obtain ⟨hrl, hpr⟩ := ht r hr
    obtain ⟨n, hn⟩ := heap_some_of_lt hrl
    have hcl : Trie.Clone h t = some (h ++ [n], ⟨some h.length⟩) := by
      simp [Trie.Clone, hr, hn]
    have hw0 : WF (h ++ [n]) (Function.update path h.length []) := by
      apply WF_alloc hw
      intro c b hf
      have := hw r n hn c b hf
      rw [hpr] at this
      exact this
    have hr0 : h.length < (h ++ [n]).length := by simp
    have hkeep : ∀ (x : Nat) (m : TrieNode), h[x]? = some m → (h ++ [n])[x]? = some m := by
      intro x m hx
      rw [heap_append_old _ _ (heap_lt_of_some hx)]
      exact hx
    have hag0 : ∀ x, x < h.length → Function.update path h.length [] x = path x :=
      fun x hx => Function.update_noteq (by omega) _ _
    obtain ⟨res, hres⟩ := getLoop_total hw0 key h.length hr0
    obtain ⟨_, s2, s3⟩ := removeLoop_spec key (h ++ [n]) h.length none
    cases res with
    | none =>
      refine ⟨h ++ [n], t, Function.update path h.length [], ?_, hw0, by simp, hag0, ?_, ?_⟩
      · simp only [Remove, hr, hcl, s2 hres]
      · intro r1 hr1
        rw [hr] at hr1
        cases hr1
        exact ⟨by simp; omega, (hag0 r hrl).trans hpr⟩
      · intro cs
        simp only [slotOf, hr]
        rw [valueAt_keep hw hkeep cs r hrl]
        by_cases hc : cs = key
        · subst hc
          rw [if_pos rfl, ← valueAt_of_copy hw hn cs, valueAt_eq_getLoop, hres]
        · rw [if_neg hc]
    | some tgt =>
      obtain ⟨par, hrem, _, hpar⟩ := s3 tgt hres
      obtain ⟨init, last, hkey⟩ : ∃ init last, key = init ++ [last] :=
        ⟨key.dropLast, key.getLast hk, (List.dropLast_append_getLast hk).symm⟩
      obtain ⟨p, pn, hp1, hp2, hp3, hp4⟩ := hpar init last hkey
      have hpl := heap_lt_of_some hp3
      have hlast : key.getLast? = some last := by
        rw [hkey]
        simp
      obtain ⟨htl, _⟩ := getLoop_path hw0 key h.length tgt hr0 hres
      obtain ⟨nt, hnt⟩ := heap_some_of_lt htl
      refine ⟨((h ++ [n]) ++ [TrieNode.mk nt.children_ none]).set p
          ⟨mapAssign pn.children_ last (h ++ [n]).length, pn.value_⟩, ⟨some h.length⟩,
        Function.update (Function.update path h.length []) (h ++ [n]).length
          (Function.update path h.length [] tgt), ?_, WF_relink hw0 hp3 hp4 hnt _,
        by simp, ?_, ?_, ?_⟩
      · simp only [Remove, hr, hcl, hrem, hnt, hp1, hlast, heap_append_old _ _ hpl, hp3]
      · intro x hx
        rw [Function.update_noteq (by simp; omega), hag0 x hx]
      · intro r1 hr1
        cases hr1
        refine ⟨by simp, ?_⟩
        rw [Function.update_noteq (by simp), Function.update_same]
      · intro cs
        simp only [slotOf, hr]
        rw [hkey, valueAt_relink hw0 init last hr0 hp2 hp3 hp4 hnt none cs,
          valueAt_of_copy hw hn cs]

/-! ## Reads through Get -/

theorem Get_eq_slot (h : Heap) (t : Trie) (T : Ty) (key : List Char) :
    Get h t T key = (slotOf h t (normKey key)).map (typed T) := by
  cases hr : t.root_ with
  | none => simp [Get, slotOf, hr, typed]
  | some r =>
    simp only [Get, slotOf, hr, valueAt_eq_getLoop, normKey]
    cases getLoop h r (if key = [] then [' '] else key) with
    | none => rfl
    | some res =>
      cases res with
      | none => rfl
      | some b =>
        simp only []
        cases h[b]? with
        | none => rfl
        | some n =>
          obtain ⟨ch, val⟩ := n
          cases val with
          | none => simp [castsTo, typed]
          | some v =>
            by_cases hv : v.ty = T
            · simp [castsTo, typed, hv]
            · simp [castsTo, typed, hv]

/-! ## The invariant of reachable states -/

/-- With the empty key Remove only returns on the empty trie, unchanged. -/
theorem Remove_nil {h h1 : Heap} {t t1 : Trie} (e : Remove h t [] = some (h1, t1)) :
    h1 = h ∧ t1 = t := by
  unfold Remove at e
  cases hr : t.root_ with
  | none =>
    simp only [hr, Option.some.injEq, Prod.mk.injEq] at e
    exact ⟨e.1.symm, e.2.symm⟩
  | some r =>
    simp only [hr, Trie.Clone] at e
    cases hn : h[r]? with
    | none => simp [hn] at e
    | some n =>
      simp only [hn, removeLoop] at e
      cases hm : (h ++ [n])[h.length]? with
      | none => simp [hm] at e
      | some m => simp [hm] at e

theorem Reach_inv {h : Heap} {ts : List Trie} (hr : Reach h ts) : Inv h ts := by
  induction hr with
  | init =>
    refine ⟨fun _ => [], ?_, ?_⟩
    · intro a n hn
      simp at hn
    · intro t ht r hroot
      simp only [List.mem_singleton] at ht
      subst ht
      cases hroot
  | @put h ts t h1 t1 key value _ hmem hput ih =>
    obtain ⟨path, hw, hroots⟩ := ih
    obtain ⟨h2, r2, path2, hp, hw2, hlen, hag, hr2, hpr2, _⟩ :=
      Put_spec hw t (hroots t hmem) key value
    rw [hput] at hp
    simp only [Option.some.injEq, Prod.mk.injEq] at hp
    obtain ⟨hh, htt⟩ := hp
    subst hh
    subst htt
    refine ⟨path2, hw2, ?_⟩
    intro t0 ht0 r hroot
    simp only [List.mem_cons] at ht0
    rcases ht0 with rfl | hold
    · cases hroot
      exact ⟨hr2, hpr2⟩
    · obtain ⟨q1, q2⟩ := hroots t0 hold r hroot
      exact ⟨by omega, (hag r q1).trans q2⟩
  | @remove h ts t h1 t1 key _ hmem hrem ih =>
    obtain ⟨path, hw, hroots⟩ := ih
    by_cases hk : key = []
    · subst hk
      obtain ⟨hh, htt⟩ := Remove_nil hrem
      subst hh
      subst htt
      refine ⟨path, hw, ?_⟩
      intro t0 ht0
      simp only [List.mem_cons] at ht0
      rcases ht0 with rfl | hold
      · exact hroots _ hmem
      · exact hroots t0 hold
    · obtain ⟨h2, t2, path2, hp, hw2, hlen, hag, hr2, _⟩ :=
        Remove_spec hw t (hroots t hmem) key hk
      rw [hrem] at hp
      simp only [Option.some.injEq, Prod.mk.injEq] at hp
      obtain ⟨hh, htt⟩ := hp
      subst hh
      subst htt
      refine ⟨path2, hw2, ?_⟩
      intro t0 ht0 r hroot
      simp only [List.mem_cons] at ht0
      rcases ht0 with rfl | hold
      · exact hr2 r hroot
      · obtain ⟨q1, q2⟩ := hroots t0 hold r hroot
        exact ⟨by omega, (hag r q1).trans q2⟩

/-! ## Reads of the new version -/

theorem typed_self (v : Value) : typed v.ty (some v) = some v := by
  simp [typed]

theorem typed_other {v : Value} {U : Ty} (hne : U ≠ v.ty) : typed U (some v) = none := by
  have : ¬ v.ty = U := fun e => hne e.symm
  simp [typed, this]

/-- Reads of the version returned by Put, in a reachable state. -/
theorem put_reads {h : Heap} {ts : List Trie} {t : Trie} (hr : Reach h ts) (ht : t ∈ ts)
    (key : List Char) (v : Value) :
    ∃ (h1 : Heap) (t1 : Trie), Put h t key v = some (h1, t1) ∧
      ∀ (T : Ty) (k2 : List Char), Get h1 t1 T k2
        = if normKey k2 = normKey key then some (typed T (some v)) else Get h t T k2 := by
  obtain ⟨path, hw, hroots⟩ := Reach_inv hr
  obtain ⟨h2, r2, path2, hp, _, _, _, _, _, hval⟩ := Put_spec hw t (hroots t ht) key v
  refine ⟨h2, ⟨some r2⟩, hp, ?_⟩
  intro T k2
  rw [Get_eq_slot, Get_eq_slot]
  have hs : slotOf h2 ⟨some r2⟩ (normKey k2) = valueAt h2 r2 (normKey k2) := rfl
  rw [hs, hval]
  by_cases hk : normKey k2 = normKey key
  · simp [hk]
  · simp [hk]

/-- Reads of the version returned by Remove with a non-empty key, in a
reachable state. -/
theorem remove_reads {h : Heap} {ts : List Trie} {t : Trie} (hr : Reach h ts) (ht : t ∈ ts)
    (key : List Char) (hk : key ≠ []) :
    ∃ (h1 : Heap) (t1 : Trie), Remove h t key = some (h1, t1) ∧
      ∀ (T : Ty) (k2 : List Char), Get h1 t1 T k2
        = if normKey k2 = key then some none else Get h t T k2 := by
  obtain ⟨path, hw, hroots⟩ := Reach_inv hr
  obtain ⟨h2, t2, path2, hp, _, _, _, _, hval⟩ := Remove_spec hw t (hroots t ht) key hk
  refine ⟨h2, t2, hp, ?_⟩
  intro T k2
  rw [Get_eq_slot, Get_eq_slot, hval]
  by_cases hk2 : normKey k2 = key
  · simp [hk2, typed]
  · simp [hk2]

theorem normKey_of_ne_nil {key : List Char} (hk : key ≠ []) : normKey key = key := by
  simp [normKey, hk]

theorem reach_cat : Reach catHeap [catTrie, emptyTrie] :=
  Reach.put catKey (.u32 1) Reach.init (List.mem_singleton.mpr rfl) (by decide)

/-! ## The claims -/

/-- C1 (persistence of Put), evaluated on the scenario of the spec: with
`t1 = Trie().Put("cat", 1)`, `t2 = t1.Put("car", 2)` and `t3 = t2.Put("cat", 3)`,
the read `t1.Get<uint32_t>("cat")` is 1 before `t3` is computed, and after it
both `t1.Get<uint32_t>("cat")` and `t2.Get<uint32_t>("cat")` are 3: Put wrote
through a node shared with its receiver. -/
theorem put_writes_into_receiver :
    catCarCatReads
      = some (some (some (.u32 1)), some (some (.u32 3)), some (some (.u32 3))) := by
  decide

/-- C2 (round trip): in every reachable state, for every trie version `t`,
every key (the empty one included) and every value `v`, Put returns a trie on
which `Get<T>` of the same key, `T` the type of `v`, finds `v`. -/
theorem put_get_roundtrip (h : Heap) (ts : List Trie) (t : Trie) (key : List Char)
    (v : Value) (hr : Reach h ts) (ht : t ∈ ts) :
    ∃ (h1 : Heap) (t1 : Trie), Put h t key v = some (h1, t1) ∧
      Get h1 t1 v.ty key = some (some v) := by
  obtain ⟨h1, t1, hp, hget⟩ := put_reads hr ht key v
  refine ⟨h1, t1, hp, ?_⟩
  rw [hget, if_pos rfl, typed_self]

theorem put_get_roundtrip_witness :
    Reach catHeap [catTrie, emptyTrie] ∧ catTrie ∈ [catTrie, emptyTrie] ∧
      ∃ (h1 : Heap) (t1 : Trie), Put catHeap catTrie [] (.u64 7) = some (h1, t1) ∧
        Get h1 t1 (Value.u64 7).ty [] = some (some (.u64 7)) :=
  ⟨reach_cat, List.mem_cons_self _ _,
    put_get_roundtrip catHeap [catTrie, emptyTrie] catTrie [] (.u64 7) reach_cat
      (List.mem_cons_self _ _)⟩

/-- C3 (persistence of Remove), evaluated: with `t1 = Trie().Put("cat", 1)`,
the read `t1.Get<uint32_t>("cat")` is 1 before `t1.Remove("cat")` is computed
and not found after it: Remove relinked a node shared with its receiver. -/
theorem remove_writes_into_receiver :
    removeCatReads = some (some (some (.u32 1)), some none) := by
  decide

/-- C4 (Remove deletes the key): in every reachable state, for every trie
version `t`, non-empty key and read type `T`, Remove returns a trie on which
`Get<T>` of the key is not found; and so does Remove applied to the result of
`t.Put(key, v)`, for every value `v`. -/
theorem remove_then_get_not_found (h : Heap) (ts : List Trie) (t : Trie) (key : List Char)
    (T : Ty) (hr : Reach h ts) (ht : t ∈ ts) (hk : key ≠ []) :
    (∃ (h1 : Heap) (t1 : Trie), Remove h t key = some (h1, t1) ∧
      Get h1 t1 T key = some none) ∧
    (∀ v : Value, ∃ (h1 : Heap) (t1 : Trie) (h2 : Heap) (t2 : Trie),
      Put h t key v = some (h1, t1) ∧ Remove h1 t1 key = some (h2, t2) ∧
      Get h2 t2 T key = some none) := by
  constructor
  · obtain ⟨h1, t1, hp, hget⟩ := remove_reads hr ht key hk
    refine ⟨h1, t1, hp, ?_⟩
    rw [hget, if_pos (normKey_of_ne_nil hk)]
  · intro v
    obtain ⟨h1, t1, hp, _⟩ := put_reads hr ht key v
    have hr1 : Reach h1 (t1 :: ts) := Reach.put key v hr ht hp
    obtain ⟨h2, t2, hrem, hget⟩ := remove_reads hr1 (List.mem_cons_self _ _) key hk
    refine ⟨h1, t1, h2, t2, hp, hrem, ?_⟩
    rw [hget, if_pos (normKey_of_ne_nil hk)]

theorem remove_then_get_not_found_witness :
    Reach catHeap [catTrie, emptyTrie] ∧ catTrie ∈ [catTrie, emptyTrie] ∧ catKey ≠ [] ∧
      ((∃ (h1 : Heap) (t1 : Trie), Remove catHeap catTrie catKey = some (h1, t1) ∧
        Get h1 t1 .u32 catKey = some none) ∧
      (∀ v : Value, ∃ (h1 : Heap) (t1 : Trie) (h2 : Heap) (t2 : Trie),
        Put catHeap catTrie catKey v = some (h1, t1) ∧ Remove h1 t1 catKey = some (h2, t2) ∧
        Get h2 t2 .u32 catKey = some none)) :=
  ⟨reach_cat, List.mem_cons_self _ _, by decide,
    remove_then_get_not_found catHeap [catTrie, emptyTrie] catTrie catKey .u32 reach_cat
      (List.mem_cons_self _ _) (by decide)⟩

/-- C5 (Remove and the empty key), evaluated on `t = Trie().Put("", 42)`:
`t.Remove("")` ends in a fatal error (the relink step has no parent node and
no last character), while `t.Remove(" ")` returns a trie on which `Get("")` is
not found. -/
theorem remove_empty_key_fails :
    removeEmptyKeyOutcomes = some (none, some (some none)) := by
  decide

/-- C6 (Remove of an absent key): in every reachable state, for every trie
version `t` and non-empty key that `t` maps to no value (no read type finds
one), Remove returns a trie that reads like `t` did, for every key and every
read type. -/
theorem remove_absent_reads_same (h : Heap) (ts : List Trie) (t : Trie) (key : List Char)
    (hr : Reach h ts) (ht : t ∈ ts) (hk : key ≠ [])
    (habs : ∀ T : Ty, Get h t T key = some none) :
    ∃ (h1 : Heap) (t1 : Trie), Remove h t key = some (h1, t1) ∧
      ∀ (T : Ty) (k2 : List Char), Get h1 t1 T k2 = Get h t T k2 := by
  obtain ⟨h1, t1, hp, hget⟩ := remove_reads hr ht key hk
  refine ⟨h1, t1, hp, ?_⟩
  intro T k2
  rw [hget]
  by_cases hk2 : normKey k2 = key
  · rw [if_pos hk2, Get_eq_slot, hk2, ← normKey_of_ne_nil hk, ← Get_eq_slot, habs T]
  · rw [if_neg hk2]

theorem remove_absent_reads_same_witness :
    Reach catHeap [catTrie, emptyTrie] ∧ catTrie ∈ [catTrie, emptyTrie] ∧ caKey ≠ [] ∧
      (∀ T : Ty, Get catHeap catTrie T caKey = some none) ∧
      ∃ (h1 : Heap) (t1 : Trie), Remove catHeap catTrie caKey = some (h1, t1) ∧
        ∀ (T : Ty) (k2 : List Char), Get h1 t1 T k2 = Get catHeap catTrie T k2 :=
  ⟨reach_cat, List.mem_cons_self _ _, by decide, fun T => by cases T <;> decide,
    remove_absent_reads_same catHeap [catTrie, emptyTrie] catTrie caKey reach_cat
      (List.mem_cons_self _ _) (by decide) (fun T => by cases T <;> decide)⟩

/-- C7 (overwrite, last Put wins): in every reachable state, for every trie
version `t`, key and values `v1`, `v2`, the two Puts return and `Get<T>` of the
key on the second result, `T` the type of `v2`, finds `v2` (in particular when
`v1` has type `T` too). -/
theorem put_put_get_last (h : Heap) (ts : List Trie) (t : Trie) (key : List Char)
    (v1 v2 : Value) (hr : Reach h ts) (ht : t ∈ ts) :
    ∃ (h1 : Heap) (t1 : Trie) (h2 : Heap) (t2 : Trie),
      Put h t key v1 = some (h1, t1) ∧ Put h1 t1 key v2 = some (h2, t2) ∧
      Get h2 t2 v2.ty key = some (some v2) := by
  obtain ⟨h1, t1, hp, _⟩ := put_reads hr ht key v1
  have hr1 : Reach h1 (t1 :: ts) := Reach.put key v1 hr ht hp
  obtain ⟨h2, t2, hp2, hget⟩ := put_reads hr1 (List.mem_cons_self _ _) key v2
  refine ⟨h1, t1, h2, t2, hp, hp2, ?_⟩
  rw [hget, if_pos rfl, typed_self]

theorem put_put_get_last_witness :
    Reach catHeap [catTrie, emptyTrie] ∧ catTrie ∈ [catTrie, emptyTrie] ∧
      ∃ (h1 : Heap) (t1 : Trie) (h2 : Heap) (t2 : Trie),
        Put catHeap catTrie catKey (.u32 2) = some (h1, t1) ∧
        Put h1 t1 catKey (.u32 3) = some (h2, t2) ∧
        Get h2 t2 (Value.u32 3).ty catKey = some (some (.u32 3)) :=
  ⟨reach_cat, List.mem_cons_self _ _,
    put_put_get_last catHeap [catTrie, emptyTrie] catTrie catKey (.u32 2) (.u32 3) reach_cat
      (List.mem_cons_self _ _)⟩

/-- C8 (type-checked read): in every reachable state, for every trie version
`t`, key, value `v` and read type `U` other than the type of `v`, `Get<U>` of
the key on the result of Put is not found; and Get on the empty trie is not
found for every key and type. -/
theorem get_other_type_not_found (h : Heap) (ts : List Trie) (t : Trie) (key : List Char)
    (v : Value) (U : Ty) (hr : Reach h ts) (ht : t ∈ ts) (hU : U ≠ v.ty) :
    (∃ (h1 : Heap) (t1 : Trie), Put h t key v = some (h1, t1) ∧
      Get h1 t1 U key = some none) ∧
    (∀ (h0 : Heap) (T : Ty) (k : List Char), Get h0 emptyTrie T k = some none) := by
  constructor
  · obtain ⟨h1, t1, hp, hget⟩ := put_reads hr ht key v
    refine ⟨h1, t1, hp, ?_⟩
    rw [hget, if_pos rfl, typed_other hU]
  · intro h0 T k
    rfl

theorem get_other_type_not_found_witness :
    Reach catHeap [catTrie, emptyTrie] ∧ catTrie ∈ [catTrie, emptyTrie] ∧
      Ty.str ≠ (Value.u32 5).ty ∧
      ((∃ (h1 : Heap) (t1 : Trie), Put catHeap catTrie carKey (.u32 5) = some (h1, t1) ∧
        Get h1 t1 .str carKey = some none) ∧
      (∀ (h0 : Heap) (T : Ty) (k : List Char), Get h0 emptyTrie T k = some none)) :=
  ⟨reach_cat, List.mem_cons_self _ _, by decide,
    get_other_type_not_found catHeap [catTrie, emptyTrie] catTrie carKey (.u32 5) .str
      reach_cat (List.mem_cons_self _ _) (by decide)⟩

/-- C9 (Put leaves other keys alone in the new version): in every reachable
state, for every trie version `t`, keys `k1` and `k2` that differ after the
empty key is normalised, value and read type `T`, `Get<T>(k2)` on the result of
`t.Put(k1, v)` equals `Get<T>(k2)` on `t` before the call; proper prefixes and
extensions of `k1` are included. -/
theorem put_keeps_other_keys (h : Heap) (ts : List Trie) (t : Trie) (k1 k2 : List Char)
    (v : Value) (T : Ty) (hr : Reach h ts) (ht : t ∈ ts) (hne : normKey k1 ≠ normKey k2) :
    ∃ (h1 : Heap) (t1 : Trie), Put h t k1 v = some (h1, t1) ∧
      Get h1 t1 T k2 = Get h t T k2 := by
  obtain ⟨h1, t1, hp, hget⟩ := put_reads hr ht k1 v
  refine ⟨h1, t1, hp, ?_⟩
  rw [hget, if_neg (fun e => hne e.symm)]

theorem put_keeps_other_keys_witness :
    Reach catHeap [catTrie, emptyTrie] ∧ catTrie ∈ [catTrie, emptyTrie] ∧
      normKey carKey ≠ normKey caKey ∧
      ∃ (h1 : Heap) (t1 : Trie), Put catHeap catTrie carKey (.u32 2) = some (h1, t1) ∧
        Get h1 t1 .u32 caKey = Get catHeap catTrie .u32 caKey :=
  ⟨reach_cat, List.mem_cons_self _ _, by decide,
    put_keeps_other_keys catHeap [catTrie, emptyTrie] catTrie carKey caKey (.u32 2) .u32
      reach_cat (List.mem_cons_self _ _) (by decide)⟩

/-- C10 (Remove leaves other keys alone in the new version): in every
reachable state, for every trie version `t`, non-empty key `k1`, key `k2` that
differs from `k1` after the empty key is normalised and read type `T`,
`Get<T>(k2)` on the result of `t.Remove(k1)` equals `Get<T>(k2)` on `t` before
the call; keys stored below `k1` are included. -/
theorem remove_keeps_other_keys (h : Heap) (ts : List Trie) (t : Trie) (k1 k2 : List Char)
    (T : Ty) (hr : Reach h ts) (ht : t ∈ ts) (hk : k1 ≠ [])
    (hne : normKey k2 ≠ normKey k1) :
    ∃ (h1 : Heap) (t1 : Trie), Remove h t k1 = some (h1, t1) ∧
      Get h1 t1 T k2 = Get h t T k2 := by
  obtain ⟨h1, t1, hp, hget⟩ := remove_reads hr ht k1 hk
  refine ⟨h1, t1, hp, ?_⟩
  rw [normKey_of_ne_nil hk] at hne
  rw [hget, if_neg hne]

theorem remove_keeps_other_keys_witness :
    Reach catHeap [catTrie, emptyTrie] ∧ catTrie ∈ [catTrie, emptyTrie] ∧ caKey ≠ [] ∧
      normKey catKey ≠ normKey caKey ∧
      ∃ (h1 : Heap) (t1 : Trie), Remove catHeap catTrie caKey = some (h1, t1) ∧
        Get h1 t1 .u32 catKey = Get catHeap catTrie .u32 catKey :=
  ⟨reach_cat, List.mem_cons_self _ _, by decide, by decide,
    remove_keeps_other_keys catHeap [catTrie, emptyTrie] catTrie caKey catKey .u32
      reach_cat (List.mem_cons_self _ _) (by decide) (by decide)⟩

/-- C11 (Put always succeeds): in every reachable state, for every trie
version (empty or not), every key (empty or not) and every value, Put returns
a trie with a root, no error branch being reached; the key it walks is not
empty, and the walk of that key in the new version reaches a node. -/
theorem put_always_returns (h : Heap) (ts : List Trie) (t : Trie) (key : List Char)
    (v : Value) (hr : Reach h ts) (ht : t ∈ ts) :
    ∃ (h1 : Heap) (r1 : Nat), Put h t key v = some (h1, ⟨some r1⟩) ∧
      (if key = [] then [' '] else key) ≠ [] ∧
      ∃ tgt, getLoop h1 r1 (if key = [] then [' '] else key) = some (some tgt) := by
  obtain ⟨path, hw, hroots⟩ := Reach_inv hr
  obtain ⟨h2, r2, path2, hp, hw2, _, _, hr2, _, hval⟩ := Put_spec hw t (hroots t ht) key v
  refine ⟨h2, r2, hp, normKey_ne_nil key, ?_⟩
  have hv := hval (normKey key)
  rw [if_pos rfl, valueAt_eq_getLoop] at hv
  obtain ⟨res, hres⟩ := getLoop_total hw2 (normKey key) r2 hr2
  cases res with
  | none =>
    rw [hres] at hv
    simp at hv
  | some tgt => exact ⟨tgt, hres⟩

theorem put_always_returns_witness :
    Reach catHeap [catTrie, emptyTrie] ∧ emptyTrie ∈ [catTrie, emptyTrie] ∧
      ∃ (h1 : Heap) (r1 : Nat), Put catHeap emptyTrie [] (.str catKey) = some (h1, ⟨some r1⟩) ∧
        (if ([] : List Char) = [] then [' '] else []) ≠ [] ∧
        ∃ tgt, getLoop h1 r1 (if ([] : List Char) = [] then [' '] else []) = some (some tgt) :=
  ⟨reach_cat, List.mem_cons_of_mem _ (List.mem_singleton.mpr rfl),
    put_always_returns catHeap [catTrie, emptyTrie] emptyTrie [] (.str catKey) reach_cat
      (List.mem_cons_of_mem _ (List.mem_singleton.mpr rfl))⟩

/-- C12 (overwriting with a different type): in every reachable state, for
every trie version `t`, key `k` and values `v1`, `v2` of different types, the
two Puts return; on the second result `Get` at the type of `v2` finds `v2`,
`Get` at the type of `v1` is not found, and every other key, the keys stored
below `k` among them, reads as it did on `t`. -/
theorem put_other_type_replaces (h : Heap) (ts : List Trie) (t : Trie) (key : List Char)
    (v1 v2 : Value) (hr : Reach h ts) (ht : t ∈ ts) (hty : v1.ty ≠ v2.ty) :
    ∃ (h1 : Heap) (t1 : Trie) (h2 : Heap) (t2 : Trie),
      Put h t key v1 = some (h1, t1) ∧ Put h1 t1 key v2 = some (h2, t2) ∧
      Get h2 t2 v2.ty key = some (some v2) ∧ Get h2 t2 v1.ty key = some none ∧
      (∀ (T : Ty) (ext : List Char), ext ≠ [] →
        Get h2 t2 T (normKey key ++ ext) = Get h t T (normKey key ++ ext)) ∧
      (∀ (T : Ty) (k2 : List Char), normKey k2 ≠ normKey key →
        Get h2 t2 T k2 = Get h t T k2) := by
  obtain ⟨h1, t1, hp, hget1⟩ := put_reads hr ht key v1
  have hr1 : Reach h1 (t1 :: ts) := Reach.put key v1 hr ht hp
  obtain ⟨h2, t2, hp2, hget2⟩ := put_reads hr1 (List.mem_cons_self _ _) key v2
  have hother : ∀ (T : Ty) (k2 : List Char), normKey k2 ≠ normKey key →
      Get h2 t2 T k2 = Get h t T k2 := by
    intro T k2 hne
    rw [hget2, if_neg hne, hget1, if_neg hne]
  refine ⟨h1, t1, h2, t2, hp, hp2, ?_, ?_, ?_, hother⟩
  · rw [hget2, if_pos rfl, typed_self]
  · rw [hget2, if_pos rfl, typed_other hty]
  · intro T ext hext
    apply hother
    have hne : normKey key ++ ext ≠ [] := by
      intro hEq
      exact hext (List.append_eq_nil.mp hEq).2
    rw [normKey_of_ne_nil hne]
    intro hEq
    have := congrArg List.length hEq
    simp only [List.length_append] at this
    have hpos : 0 < ext.length := List.length_pos.mpr hext
    omega

theorem put_other_type_replaces_witness :
    Reach catHeap [catTrie, emptyTrie] ∧ catTrie ∈ [catTrie, emptyTrie] ∧
      (Value.u64 9).ty ≠ (Value.str carKey).ty ∧
      ∃ (h1 : Heap) (t1 : Trie) (h2 : Heap) (t2 : Trie),
        Put catHeap catTrie caKey (.u64 9) = some (h1, t1) ∧
        Put h1 t1 caKey (.str carKey) = some (h2, t2) ∧
        Get h2 t2 (Value.str carKey).ty caKey = some (some (.str carKey)) ∧
        Get h2 t2 (Value.u64 9).ty caKey = some none ∧
        (∀ (T : Ty) (ext : List Char), ext ≠ [] →
          Get h2 t2 T (normKey caKey ++ ext) = Get catHeap catTrie T (normKey caKey ++ ext)) ∧
        (∀ (T : Ty) (k2 : List Char), normKey k2 ≠ normKey caKey →
          Get h2 t2 T k2 = Get catHeap catTrie T k2) :=
  ⟨reach_cat, List.mem_cons_self _ _, by decide,
    put_other_type_replaces catHeap [catTrie, emptyTrie] catTrie caKey (.u64 9)
      (.str carKey) reach_cat (List.mem_cons_self _ _) (by decide)⟩

/-- C13 (the empty key and " " are one slot): on every heap and trie,
`Get<T>("")` equals `Get<T>(" ")` and `Put("", v)` is the same update as
`Put(" ", v)`; in every reachable state `Put("", v)` returns a trie on which
both `Get("")` and `Get(" ")` find `v`, while every key other than these two,
such as "  " or " a", reads as it did on the receiver. -/
theorem empty_key_is_space_key (h : Heap) (ts : List Trie) (t : Trie) (v : Value)
    (hr : Reach h ts) (ht : t ∈ ts) :
    (∀ (h0 : Heap) (t0 : Trie) (T : Ty), Get h0 t0 T [] = Get h0 t0 T [' ']) ∧
    (∀ (h0 : Heap) (t0 : Trie), Put h0 t0 [] v = Put h0 t0 [' '] v) ∧
    ∃ (h1 : Heap) (t1 : Trie), Put h t [] v = some (h1, t1) ∧
      Get h1 t1 v.ty [] = some (some v) ∧ Get h1 t1 v.ty [' '] = some (some v) ∧
      (∀ (T : Ty) (k2 : List Char), k2 ≠ [] → k2 ≠ [' '] →
        Get h1 t1 T k2 = Get h t T k2) ∧
      (∀ T : Ty, Get h1 t1 T [' ', ' '] = Get h t T [' ', ' ']) ∧
      (∀ T : Ty, Get h1 t1 T [' ', 'a'] = Get h t T [' ', 'a']) := by
  obtain ⟨h1, t1, hp, hget⟩ := put_reads hr ht [] v
  have hother : ∀ (T : Ty) (k2 : List Char), k2 ≠ [] → k2 ≠ [' '] →
      Get h1 t1 T k2 = Get h t T k2 := by
    intro T k2 hne1 hne2
    rw [hget, if_neg]
    rw [normKey_of_ne_nil hne1]
    exact hne2
  refine ⟨fun h0 t0 T => rfl, fun h0 t0 => rfl, h1, t1, hp, ?_, ?_, hother, ?_, ?_⟩
  · rw [hget, if_pos rfl, typed_self]
  · rw [hget, if_pos (show normKey [' '] = normKey [] from rfl), typed_self]
  · intro T
    exact hother T _ (by decide) (by decide)
  · intro T
    exact hother T _ (by decide) (by decide)

theorem empty_key_is_space_key_witness :
    Reach [] [emptyTrie] ∧ emptyTrie ∈ [emptyTrie] ∧
      ((∀ (h0 : Heap) (t0 : Trie) (T : Ty), Get h0 t0 T [] = Get h0 t0 T [' ']) ∧
      (∀ (h0 : Heap) (t0 : Trie), Put h0 t0 [] (.u32 42) = Put h0 t0 [' '] (.u32 42)) ∧
      ∃ (h1 : Heap) (t1 : Trie), Put [] emptyTrie [] (.u32 42) = some (h1, t1) ∧
        Get h1 t1 (Value.u32 42).ty [] = some (some (.u32 42)) ∧
        Get h1 t1 (Value.u32 42).ty [' '] = some (some (.u32 42)) ∧
        (∀ (T : Ty) (k2 : List Char), k2 ≠ [] → k2 ≠ [' '] →
          Get h1 t1 T k2 = Get [] emptyTrie T k2) ∧
        (∀ T : Ty, Get h1 t1 T [' ', ' '] = Get [] emptyTrie T [' ', ' ']) ∧
        (∀ T : Ty, Get h1 t1 T [' ', 'a'] = Get [] emptyTrie T [' ', 'a'])) :=
  ⟨Reach.init, List.mem_singleton.mpr rfl,
    empty_key_is_space_key [] [emptyTrie] emptyTrie (.u32 42) Reach.init
      (List.mem_singleton.mpr rfl)⟩

/-! ## The path of a removed key -/

theorem getLoop_frame {h h1 : Heap} {path : Nat → List Char} (hw : WF h path) :
    ∀ (cs : List Char) (b : Nat), b < h.length →
      (∀ (x : Nat) (n : TrieNode), h[x]? = some n → path b <+: path x → h1[x]? = some n) →
      getLoop h1 b cs = getLoop h b cs := by
  intro cs
  induction cs with
  | nil => intro b _ _; rfl
  | cons c cs ih =>
    intro b hb hag
    obtain ⟨n, hn⟩ := heap_some_of_lt hb
    simp only [getLoop, hn, hag b n hn (List.prefix_refl _)]
    cases hf : mapFind n.children_ c with
    | none => rfl
    | some b1 =>
      obtain ⟨h1lt, h2⟩ := hw b n hn c b1 hf
      simp only []
      apply ih b1 h1lt
      intro x m hx hpre
      apply hag x m hx
      rw [h2] at hpre
      exact List.IsPrefix.trans (List.prefix_append _ _) hpre

/-- A walk that reaches `x` along `ks` still does so after an edit at `x`, and
continues from `x` in the new heap. -/
theorem getLoop_edit {h h1 : Heap} {path : Nat → List Char} (hw : WF h path) (x : Nat)
    (hag : ∀ (b : Nat) (n : TrieNode), h[b]? = some n → b ≠ x → h1[b]? = some n) :
    ∀ (ks : List Char) (a : Nat), a < h.length → getLoop h a ks = some (some x) →
      ∀ ext, getLoop h1 a (ks ++ ext) = getLoop h1 x ext := by
  intro ks
  induction ks with
  | nil =>
    intro a _ e ext
    simp only [getLoop, Option.some.injEq] at e
    subst e
    rfl
  | cons k0 ks ih =>
    intro a ha e ext
    obtain ⟨n, hn⟩ := heap_some_of_lt ha
    have hpx := (getLoop_path hw (k0 :: ks) a x ha e).2
    simp only [getLoop, hn] at e
    cases hf : mapFind n.children_ k0 with
    | none => simp [hf] at e
    | some a1 =>
      simp only [hf] at e
      obtain ⟨ha1, _⟩ := hw a n hn k0 a1 hf
      have hax : a ≠ x := by
        intro hEq
        rw [← hEq] at hpx
        have := congrArg List.length hpx
        simp at this
      simp only [List.cons_append, getLoop, hag a n hn hax, hf]
      exact ih a1 ha1 e ext

theorem getLoop_init : ∀ (init ext : List Char) (h : Heap) (a x : Nat),
    getLoop h a (init ++ ext) = some (some x) → ∃ b, getLoop h a init = some (some b) := by
  intro init
  induction init with
  | nil => intro ext h a x _; exact ⟨a, rfl⟩
  | cons c init ih =>
    intro ext h a x e
    simp only [List.cons_append, getLoop] at e ⊢
    cases hn : h[a]? with
    | none => simp [hn] at e
    | some n =>
      simp only [hn] at e ⊢
      cases hf : mapFind n.children_ c with
      | none => simp [hf] at e
      | some b =>
        simp only [hf] at e ⊢
        exact ih ext h b x e

/-- Remove of a non-empty key whose path exists: the path still exists in the
result and ends at a node with the old children and no value. -/
theorem Remove_path {h : Heap} {path : Nat → List Char} (hw : WF h path) (t : Trie)
    (ht : RootOK h path t) (key : List Char) (hk : key ≠ []) {r tgt : Nat} {n : TrieNode}
    (hr : t.root_ = some r) (hg : getLoop h r key = some (some tgt))
    (hn : h[tgt]? = some n) :
    ∃ (h2 : Heap) (r2 tgt2 : Nat), Remove h t key = some (h2, ⟨some r2⟩) ∧
      getLoop h2 r2 key = some (some tgt2) ∧
      h2[tgt2]? = some (TrieNode.mk n.children_ none) := by
  obtain ⟨hrl, hpr⟩ := ht r hr
  obtain ⟨nr, hnr⟩ := heap_some_of_lt hrl
  have hcl : Trie.Clone h t = some (h ++ [nr], ⟨some h.length⟩) := by
    simp [Trie.Clone, hr, hnr]
  have hw0 : WF (h ++ [nr]) (Function.update path h.length []) := by
    apply WF_alloc hw
    intro c b hf
    have := hw r nr hnr c b hf
    rw [hpr] at this
    exact this
  have hr0 : h.length < (h ++ [nr]).length := by simp
  have hkeep : ∀ (x : Nat) (m : TrieNode), h[x]? = some m → (h ++ [nr])[x]? = some m := by
    intro x m hx
    rw [heap_append_old _ _ (heap_lt_of_some hx)]
    exact hx
  obtain ⟨init, last, hkey⟩ : ∃ init last, key = init ++ [last] :=
    ⟨key.dropLast, key.getLast hk, (List.dropLast_append_getLast hk).symm⟩
  -- the walk from the copied root is the walk from the root
  have hres : getLoop (h ++ [nr]) h.length key = some (some tgt) := by
    cases key with
    | nil => exact absurd rfl hk
    | cons c cs =>
      simp only [getLoop, hnr] at hg
      simp only [getLoop, heap_append_new]
      cases hf : mapFind nr.children_ c with
      | none => simp [hf] at hg
      | some b =>
        simp only [hf] at hg ⊢
        rw [getLoop_frame hw cs b (hw r nr hnr c b hf).1 (fun x m hx _ => hkeep x m hx)]
        exact hg
  have hnt : (h ++ [nr])[tgt]? = some n := hkeep tgt n hn
  obtain ⟨_, _, s3⟩ := removeLoop_spec key (h ++ [nr]) h.length none
  obtain ⟨par, hrem, _, hpar⟩ := s3 tgt hres
  obtain ⟨p, pn, hp1, hp2, hp3, hp4⟩ := hpar init last hkey
  have hpl := heap_lt_of_some hp3
  have hpl1 : p < ((h ++ [nr]) ++ [TrieNode.mk n.children_ none]).length := by
    simp only [List.length_append, List.length_singleton] at hpl ⊢
    omega
  have hlast : key.getLast? = some last := by
    rw [hkey]
    simp
  refine ⟨((h ++ [nr]) ++ [TrieNode.mk n.children_ none]).set p
      ⟨mapAssign pn.children_ last (h ++ [nr]).length, pn.value_⟩, h.length,
    (h ++ [nr]).length, ?_, ?_, ?_⟩
  · simp only [Remove, hr, hcl, hrem, hnt, hp1, hlast, heap_append_old _ _ hpl, hp3]
  · rw [hkey, getLoop_edit hw0 p ?_ init h.length hr0 hp2 [last]]
    · simp only [getLoop, heap_set_same _ _ hpl1, mapFind_mapAssign, if_true]
    · intro b m hb hne
      rw [heap_set_other _ _ hne, heap_append_old _ _ (heap_lt_of_some hb)]
      exact hb
  · rw [heap_set_other _ _ (by omega), heap_append_new]

/-- C14 (Remove does not prune): in every reachable state, for every trie
version `t` and non-empty key whose full path exists in `t` and ends at node
`n`, Remove returns a trie in which every character of the key is still a
child entry of the node before it (the walk of every initial part of the key
reaches a node), the last node having no value and the children of `n`, also
when that node is childless. -/
theorem remove_does_not_prune (h : Heap) (ts : List Trie) (t : Trie) (key : List Char)
    (r tgt : Nat) (n : TrieNode) (hr : Reach h ts) (ht : t ∈ ts) (hk : key ≠ [])
    (hroot : t.root_ = some r) (hg : getLoop h r key = some (some tgt))
    (hn : h[tgt]? = some n) :
    ∃ (h1 : Heap) (r1 tgt1 : Nat), Remove h t key = some (h1, ⟨some r1⟩) ∧
      getLoop h1 r1 key = some (some tgt1) ∧
      h1[tgt1]? = some (TrieNode.mk n.children_ none) ∧
      ∀ init ext, key = init ++ ext → ∃ b, getLoop h1 r1 init = some (some b) := by
  obtain ⟨path, hw, hroots⟩ := Reach_inv hr
  obtain ⟨h2, r2, tgt2, hrem, hget, hnode⟩ :=
    Remove_path hw t (hroots t ht) key hk hroot hg hn
  refine ⟨h2, r2, tgt2, hrem, hget, hnode, ?_⟩
  intro init ext hEq
  rw [hEq] at hget
  exact getLoop_init init ext h2 r2 tgt2 hget

theorem remove_does_not_prune_witness :
    Reach catHeap [catTrie, emptyTrie] ∧ catTrie ∈ [catTrie, emptyTrie] ∧ catKey ≠ [] ∧
      catTrie.root_ = some 0 ∧ getLoop catHeap 0 catKey = some (some 4) ∧
      catHeap[4]? = some (TrieNode.mk [] (some (.u32 1))) ∧
      ∃ (h1 : Heap) (r1 tgt1 : Nat), Remove catHeap catTrie catKey = some (h1, ⟨some r1⟩) ∧
        getLoop h1 r1 catKey = some (some tgt1) ∧
        h1[tgt1]? = some (TrieNode.mk (TrieNode.mk [] (some (.u32 1))).children_ none) ∧
        ∀ init ext, catKey = init ++ ext → ∃ b, getLoop h1 r1 init = some (some b) :=
  ⟨reach_cat, List.mem_cons_self _ _, by decide, rfl, by decide, by decide,
    remove_does_not_prune catHeap [catTrie, emptyTrie] catTrie catKey 0 4
      (TrieNode.mk [] (some (.u32 1))) reach_cat (List.mem_cons_self _ _) (by decide) rfl
      (by decide) (by decide)⟩

/-! ## Refinement of a finite map -/

theorem chain_refines : ∀ (ops : List Op) (h : Heap) (ts : List Trie) (t : Trie)
    (m : List Char → Option Value), Reach h ts → t ∈ ts → NoEmptyRemove ops →
    (∀ (T : Ty) (k : List Char), Get h t T k = some (typed T (m (normKey k)))) →
    ∃ (h1 : Heap) (t1 : Trie), runChain ops (h, t) = some (h1, t1) ∧
      ∀ (T : Ty) (k : List Char),
        Get h1 t1 T k = some (typed T (specMapRun ops m (normKey k))) := by
  intro ops
  induction ops with
  | nil =>
    intro h ts t m _ _ _ hm
    exact ⟨h, t, rfl, hm⟩
  | cons op ops ih =>
    intro h ts t m hr ht hne hm
    have hne1 : NoEmptyRemove ops := fun key hmem => hne key (List.mem_cons_of_mem _ hmem)
    cases op with
    | put key value =>
      obtain ⟨h1, t1, hp, hget⟩ := put_reads hr ht key value
      have hr1 : Reach h1 (t1 :: ts) := Reach.put key value hr ht hp
      obtain ⟨h2, t2, hrun, hfin⟩ := ih h1 (t1 :: ts) t1 (specMapApply m (.put key value))
        hr1 (List.mem_cons_self _ _) hne1 (by
          intro T k
          rw [hget, hm]
          by_cases hk : normKey k = normKey key
          · simp [specMapApply, hk]
          · simp [specMapApply, hk])
      refine ⟨h2, t2, ?_, hfin⟩
      simp only [runChain, applyOp, hp]
      exact hrun
    | remove key =>
      have hk : key ≠ [] := hne key (List.mem_cons_self _ _)
      obtain ⟨h1, t1, hp, hget⟩ := remove_reads hr ht key hk
      have hr1 : Reach h1 (t1 :: ts) := Reach.remove key hr ht hp
      obtain ⟨h2, t2, hrun, hfin⟩ := ih h1 (t1 :: ts) t1 (specMapApply m (.remove key))
        hr1 (List.mem_cons_self _ _) hne1 (by
          intro T k
          rw [hget, hm]
          by_cases hk2 : normKey k = key
          · simp [specMapApply, hk2, normKey_of_ne_nil hk, typed]
          · simp [specMapApply, hk2, normKey_of_ne_nil hk])
      refine ⟨h2, t2, ?_, hfin⟩
      simp only [runChain, applyOp, hp]
      exact hrun

/-- C15 (a chain of versions refines a finite map): for every finite sequence
of `Put(k, v)` (any key) and `Remove(k)` (non-empty key), each applied to the
result of the previous one from the empty trie, every update returns, and for
every key and read type `Get` on the final trie equals the lookup of the key
in the finite map built by the same inserts and deletes on normalised keys,
a value being found only when its type is the read type. -/
theorem chain_refines_finite_map (ops : List Op) (hne : NoEmptyRemove ops) :
    ∃ (h1 : Heap) (t1 : Trie), runChain ops ([], emptyTrie) = some (h1, t1) ∧
      ∀ (T : Ty) (k : List Char),
        Get h1 t1 T k = some (specMapGet (specMapRun ops (fun _ => none)) T k) := by
  obtain ⟨h1, t1, hrun, hget⟩ := chain_refines ops [] [emptyTrie] emptyTrie (fun _ => none)
    Reach.init (List.mem_singleton.mpr rfl) hne (fun T k => rfl)
  exact ⟨h1, t1, hrun, fun T k => hget T k⟩

theorem chain_refines_finite_map_witness :
    NoEmptyRemove [.put catKey (.u32 1), .put [] (.str carKey), .remove catKey,
        .put carKey (.u64 2)] ∧
      ∃ (h1 : Heap) (t1 : Trie),
        runChain [.put catKey (.u32 1), .put [] (.str carKey), .remove catKey,
          .put carKey (.u64 2)] ([], emptyTrie) = some (h1, t1) ∧
        ∀ (T : Ty) (k : List Char), Get h1 t1 T k
          = some (specMapGet (specMapRun [.put catKey (.u32 1), .put [] (.str carKey),
              .remove catKey, .put carKey (.u64 2)] (fun _ => none)) T k) :=
  ⟨by intro key hmem; simp at hmem; subst hmem; decide,
    chain_refines_finite_map [.put catKey (.u32 1), .put [] (.str carKey), .remove catKey,
      .put carKey (.u64 2)] (by intro key hmem; simp at hmem; subst hmem; decide)⟩

/-! ## HyperLogLog: the position of the leftmost one -/

theorem leftmostLoop_cases (b bset : Nat) : ∀ n : Nat,
    (HyperLogLog.leftmostLoop b bset n = 0 ∧ ∀ i, i < n → bset.testBit i = false) ∨
    (∃ i, i < n ∧ bset.testBit i = true ∧ (∀ j, i < j → j < n → bset.testBit j = false) ∧
      HyperLogLog.leftmostLoop b bset n = BITSET_CAPACITY - b - i) := by
  intro n
  induction n with
  | zero =>
    left
    exact ⟨rfl, fun i hi => absurd hi (Nat.not_lt_zero i)⟩
  | succ n ih =>
    by_cases hbit : bset.testBit n = true
    · right
      refine ⟨n, Nat.lt_succ_self n, hbit, ?_, ?_⟩
      · intro j h1 h2
        omega
      · simp [HyperLogLog.leftmostLoop, hbit]
    · have hfalse : bset.testBit n = false := by
        cases hx : bset.testBit n with
        | true => exact absurd hx hbit
        | false => rfl
      have hstep : HyperLogLog.leftmostLoop b bset (n + 1)
          = HyperLogLog.leftmostLoop b bset n := by
        simp [HyperLogLog.leftmostLoop, hfalse]
      rcases ih with ⟨h0, hall⟩ | ⟨i, hi, hset, habove, hval⟩
      · left
        refine ⟨hstep.trans h0, ?_⟩
        intro i hi
        by_cases hin : i = n
        · rw [hin]
          exact hfalse
        · exact hall i (by omega)
      · right
        refine ⟨i, by omega, hset, ?_, hstep.trans hval⟩
        intro j h1 h2
        by_cases hjn : j = n
        · rw [hjn]
          exact hfalse
        · exact habove j h1 (by omega)

/-- C16 (PositionOfLeftmostOne): for every bitset and every number `b` of
index bits, with `w = 64 - b` the window of bits 0 to `w - 1` that follow the
index bits: the result is 0 exactly when no bit of the window is set; when
bit `i` is the highest set bit of the window, the result is 1 plus the number
`w - 1 - i` of zero bits above it in the window; and a non-zero result lies
between 1 and `w`. -/
theorem position_of_leftmost_one (b bset : Nat) :
    (HyperLogLog.PositionOfLeftmostOne b bset = 0 ↔
      ∀ i, i < 64 - b → bset.testBit i = false) ∧
    (∀ i, i < 64 - b → bset.testBit i = true →
      (∀ j, i < j → j < 64 - b → bset.testBit j = false) →
      HyperLogLog.PositionOfLeftmostOne b bset = 1 + (64 - b - 1 - i)) ∧
    ((∃ i, i < 64 - b ∧ bset.testBit i = true) →
      1 ≤ HyperLogLog.PositionOfLeftmostOne b bset) ∧
    HyperLogLog.PositionOfLeftmostOne b bset ≤ 64 - b := by
  have hcases := leftmostLoop_cases b bset (BITSET_CAPACITY - b)
  simp only [BITSET_CAPACITY] at hcases
  have hdef : HyperLogLog.PositionOfLeftmostOne b bset
      = HyperLogLog.leftmostLoop b bset (64 - b) := rfl
  rw [hdef]
  rcases hcases with ⟨h0, hall⟩ | ⟨i, hi, hset, habove, hval⟩
  · refine ⟨⟨fun _ => hall, fun _ => h0⟩, ?_, ?_, ?_⟩
    · intro i hi hset _
      rw [hall i hi] at hset
      cases hset
    · rintro ⟨i, hi, hset⟩
      rw [hall i hi] at hset
      cases hset
    · rw [h0]
      exact Nat.zero_le _
  · have hpos : HyperLogLog.leftmostLoop b bset (64 - b) = 1 + (64 - b - 1 - i) := by
      rw [hval]
      omega
    refine ⟨⟨?_, ?_⟩, ?_, ?_, ?_⟩
    · intro hz
      rw [hpos] at hz
      omega
    · intro hall
      rw [hall i hi] at hset
      cases hset
    · intro k hk hkset hkabove
      have hik : i = k := by
        rcases Nat.lt_trichotomy i k with hlt | heq | hgt
        · rw [habove k hlt hk] at hkset
          cases hkset
        · exact heq
        · rw [hkabove i hgt hi] at hset
          cases hset
      rw [← hik]
      exact hpos
    · intro _
      rw [hpos]
      omega
    · rw [hpos]
      omega

/-! ## HyperLogLogPresto: the count of zero bits from bit 0 -/

theorem zeroesLoop_cases (bset limit : Nat) : ∀ (n i : Nat), n + i = limit →
    (HyperLogLogPresto.zeroesLoop bset limit n i = limit ∧
      ∀ j, i ≤ j → j < limit → bset.testBit j = false) ∨
    (∃ k, i ≤ k ∧ k < limit ∧ bset.testBit k = true ∧
      (∀ j, i ≤ j → j < k → bset.testBit j = false) ∧
      HyperLogLogPresto.zeroesLoop bset limit n i = k) := by
  intro n
  induction n with
  | zero =>
    intro i hi
    left
    refine ⟨rfl, ?_⟩
    intro j h1 h2
    omega
  | succ n ih =>
    intro i hi
    by_cases hbit : bset.testBit i = true
    · right
      refine ⟨i, le_refl _, by omega, hbit, ?_, ?_⟩
      · intro j h1 h2
        omega
      · simp [HyperLogLogPresto.zeroesLoop, hbit]
    · have hfalse : bset.testBit i = false := by
        cases hx : bset.testBit i with
        | true => exact absurd hx hbit
        | false => rfl
      have hstep : HyperLogLogPresto.zeroesLoop bset limit (n + 1) i
          = HyperLogLogPresto.zeroesLoop bset limit n (i + 1) := by
        simp [HyperLogLogPresto.zeroesLoop, hfalse]
      rcases ih (i + 1) (by omega) with ⟨h0, hall⟩ | ⟨k, hk1, hk2, hset, hbelow, hval⟩
      · left
        refine ⟨hstep.trans h0, ?_⟩
        intro j h1 h2
        by_cases hji : j = i
        · rw [hji]
          exact hfalse
        · exact hall j (by omega) h2
      · right
        refine ⟨k, by omega, hk2, hset, ?_, hstep.trans hval⟩
        intro j h1 h2
        by_cases hji : j = i
        · rw [hji]
          exact hfalse
        · exact hbelow j (by omega) h2

/-- C20 (CalcLeadingZeroes of the Presto variant): for every bitset and every
number `b` of index bits, the result is the number of zero bits counted from
bit 0 upward, capped at `64 - b`: it is the index of the lowest set bit when
that index is below `64 - b`, and `64 - b` when none of the bits 0 to
`63 - b` is set; it is at most 64 and below 128, the range of a 7-bit
register. -/
theorem calc_leading_zeroes (b bset : Nat) :
    (∀ k, k < 64 - b → bset.testBit k = true → (∀ j, j < k → bset.testBit j = false) →
      HyperLogLogPresto.CalcLeadingZeroes b bset = k) ∧
    ((∀ j, j < 64 - b → bset.testBit j = false) →
      HyperLogLogPresto.CalcLeadingZeroes b bset = 64 - b) ∧
    (∀ j, j < HyperLogLogPresto.CalcLeadingZeroes b bset → bset.testBit j = false) ∧
    HyperLogLogPresto.CalcLeadingZeroes b bset ≤ 64 - b ∧
    HyperLogLogPresto.CalcLeadingZeroes b bset ≤ 64 ∧
    HyperLogLogPresto.CalcLeadingZeroes b bset < 2 ^ TOTAL_BUCKET_SIZE := by
  have hcases := zeroesLoop_cases bset (BITSET_CAPACITY - b) (BITSET_CAPACITY - b) 0 rfl
  simp only [BITSET_CAPACITY] at hcases
  have hdef : HyperLogLogPresto.CalcLeadingZeroes b bset
      = HyperLogLogPresto.zeroesLoop bset (64 - b) (64 - b) 0 := rfl
  have hpow : 2 ^ TOTAL_BUCKET_SIZE = 128 := by decide
  rw [hdef, hpow]
  rcases hcases with ⟨h0, hall⟩ | ⟨k, _, hk, hset, hbelow, hval⟩
  · rw [h0]
    refine ⟨?_, fun _ => rfl, ?_, le_refl _, by omega, by omega⟩
    · intro k hk hkset _
      rw [hall k (Nat.zero_le _) hk] at hkset
      cases hkset
    · intro j hj
      exact hall j (Nat.zero_le _) hj
  · rw [hval]
    refine ⟨?_, ?_, ?_, by omega, by omega, by omega⟩
    · intro k2 hk2 hk2set hk2below
      rcases Nat.lt_trichotomy k k2 with hlt | heq | hgt
      · rw [hk2below k hlt] at hset
        cases hset
      · exact heq
      · rw [hbelow k2 (Nat.zero_le _) hgt] at hk2set
        cases hk2set
    · intro hall
      rw [hall k hk] at hset
      cases hset
    · intro j hj
      exact hbelow j (Nat.zero_le _) hj

/-! ## The register index -/

theorem top_bits_eq_div (b bset : Nat) (hbset : bset < 2 ^ 64) :
    (bset &&& ((2 ^ 64 - 1) <<< (64 - b)) % 2 ^ 64) >>> (64 - b) = bset / 2 ^ (64 - b) := by
  rw [← Nat.shiftRight_eq_div_pow]
  apply Nat.eq_of_testBit_eq
  intro i
  simp only [Nat.testBit_shiftRight, Nat.testBit_and, Nat.testBit_mod_two_pow,
    Nat.testBit_shiftLeft, Nat.testBit_two_pow_sub_one]
  by_cases hlt : 64 - b + i < 64
  · have h3 : i < 64 := by omega
    simp [hlt, h3]
  · have hle : 2 ^ 64 ≤ 2 ^ (64 - b + i) := Nat.pow_le_pow_right (by decide) (by omega)
    have hfalse : bset.testBit (64 - b + i) = false :=
      Nat.testBit_lt_two_pow (Nat.lt_of_lt_of_le hbset hle)
    simp [hfalse]

theorem HyperLogLog_CalcIndex_eq (b bset : Nat) (hbset : bset < 2 ^ 64) :
    HyperLogLog.CalcIndex b bset = bset / 2 ^ (64 - b) :=
  top_bits_eq_div b bset hbset

theorem HyperLogLogPresto_CalcIndex_eq (b bset : Nat) (hbset : bset < 2 ^ 64) :
    HyperLogLogPresto.CalcIndex b bset = bset / 2 ^ (64 - b) :=
  top_bits_eq_div b bset hbset

theorem top_bits_lt (b bset : Nat) (hb : b ≤ 64) (hbset : bset < 2 ^ 64) :
    bset / 2 ^ (64 - b) < 2 ^ b := by
  rw [Nat.div_lt_iff_lt_mul (Nat.pos_pow_of_pos _ (by decide))]
  rw [← Nat.pow_add]
  have : b + (64 - b) = 64 := by omega
  rw [this]
  exact hbset

theorem ComputeBinary_lt (hash : Nat) : HyperLogLog.ComputeBinary hash < 2 ^ 64 :=
  Nat.mod_lt _ (by decide)

theorem leftmost_le (b bset : Nat) : HyperLogLog.PositionOfLeftmostOne b bset ≤ 64 - b := by
  have hcases := leftmostLoop_cases b bset (BITSET_CAPACITY - b)
  simp only [BITSET_CAPACITY] at hcases
  have hdef : HyperLogLog.PositionOfLeftmostOne b bset
      = HyperLogLog.leftmostLoop b bset (64 - b) := rfl
  rw [hdef]
  rcases hcases with ⟨h0, _⟩ | ⟨i, _, _, _, hval⟩
  · rw [h0]
    exact Nat.zero_le _
  · rw [hval]
    omega

/-- One AddElem on a register array of `2 ^ b_` registers. -/
theorem AddElem_spec (s : HyperLogLog) (hash : Nat) (hlen : s.registers_.length = 2 ^ s.b_)
    (hb : s.b_ ≤ 64) :
    ∃ (old : Nat) (s1 : HyperLogLog),
      s.registers_[HyperLogLog.CalcIndex s.b_ (HyperLogLog.ComputeBinary hash)]? = some old ∧
      HyperLogLog.AddElem s hash = some s1 ∧
      s1 = ⟨s.cardinality_, s.registers_.set
        (HyperLogLog.CalcIndex s.b_ (HyperLogLog.ComputeBinary hash))
        (max old (HyperLogLog.PositionOfLeftmostOne s.b_ (HyperLogLog.ComputeBinary hash))),
        s.b_⟩ ∧
      HyperLogLog.CalcIndex s.b_ (HyperLogLog.ComputeBinary hash) < s.registers_.length := by
  have hidx : HyperLogLog.CalcIndex s.b_ (HyperLogLog.ComputeBinary hash)
      < s.registers_.length := by
    rw [hlen, HyperLogLog_CalcIndex_eq _ _ (ComputeBinary_lt hash)]
    exact top_bits_lt _ _ hb (ComputeBinary_lt hash)
  refine ⟨s.registers_[HyperLogLog.CalcIndex s.b_ (HyperLogLog.ComputeBinary hash)], _,
    List.getElem?_eq_getElem hidx, ?_, rfl, hidx⟩
  simp only [HyperLogLog.AddElem, List.getElem?_eq_getElem hidx]

/-- Any sequence of AddElem calls on `2 ^ b_` registers returns, keeps the
number of registers and `b_`, lowers no register, and keeps a bound that is at
least `64 - b_`. -/
theorem addAll_spec : ∀ (hashes : List Nat) (s : HyperLogLog),
    s.registers_.length = 2 ^ s.b_ → s.b_ ≤ 64 →
    ∃ s2, HyperLogLog.addAll s hashes = some s2 ∧ s2.b_ = s.b_ ∧
      s2.registers_.length = s.registers_.length ∧
      (∀ (j x : Nat), s.registers_[j]? = some x →
        ∃ y, s2.registers_[j]? = some y ∧ x ≤ y) ∧
      ((∀ x, x ∈ s.registers_ → x ≤ 64 - s.b_) → ∀ y, y ∈ s2.registers_ → y ≤ 64 - s.b_) := by
  intro hashes
  induction hashes with
  | nil =>
    intro s _ _
    exact ⟨s, rfl, rfl, rfl, fun j x hx => ⟨x, hx, le_refl _⟩, fun hall => hall⟩
  | cons hash rest ih =>
    intro s hlen hb
    obtain ⟨old, s1, hold, hadd, hs1, hidx⟩ := AddElem_spec s hash hlen hb
    have hb1 : s1.b_ = s.b_ := by rw [hs1]
    have hlen1 : s1.registers_.length = s.registers_.length := by
      rw [hs1]
      simp
    obtain ⟨s2, hrun, hb2, hlen2, hmono, hbound⟩ :=
      ih s1 (by rw [hlen1, hb1]; exact hlen) (by rw [hb1]; exact hb)
    refine ⟨s2, ?_, hb2.trans hb1, hlen2.trans hlen1, ?_, ?_⟩
    · simp only [HyperLogLog.addAll, hadd]
      exact hrun
    · intro j x hx
      have hstep : ∃ z, s1.registers_[j]? = some z ∧ x ≤ z := by
        rw [hs1]
        by_cases hj : HyperLogLog.CalcIndex s.b_ (HyperLogLog.ComputeBinary hash) = j
        · subst hj
          rw [hold] at hx
          cases hx
          exact ⟨max old (HyperLogLog.PositionOfLeftmostOne s.b_
            (HyperLogLog.ComputeBinary hash)), by simp [List.getElem?_set, hidx],
            le_max_left _ _⟩
        · exact ⟨x, by simp [List.getElem?_set, hj, hx], le_refl _⟩
      obtain ⟨z, hz, hxz⟩ := hstep
      obtain ⟨y, hy, hzy⟩ := hmono j z hz
      exact ⟨y, hy, le_trans hxz hzy⟩
    · intro hall
      rw [← hb1]
      apply hbound
      intro x hx
      rw [hs1] at hx
      rw [hb1]
      rcases List.mem_or_eq_of_mem_set hx with hmem | heq
      · exact hall x hmem
      · rw [heq]
        apply max_le
        · exact hall old (List.getElem?_mem hold)
        · exact leftmost_le _ _

/-- C18 (the register index is in range): for every 64-bit hash and every `b`
from 0 to 16, CalcIndex of both classes returns the top `b` bits of the hash,
`hash / 2 ^ (64 - b)`, which is below `2 ^ b`, the number of registers the
constructor allocates; for `b = 0` the index is 0; and no AddElem of a
sequence of calls on the constructed object reaches outside the register
array. -/
theorem calc_index_in_range (b hash : Nat) (hb : b ≤ 16) (hh : hash < 2 ^ 64) :
    HyperLogLog.CalcIndex b hash = hash / 2 ^ (64 - b) ∧
    HyperLogLogPresto.CalcIndex b hash = hash / 2 ^ (64 - b) ∧
    HyperLogLog.CalcIndex b hash < 2 ^ b ∧
    (HyperLogLog.create b).registers_.length = 2 ^ b ∧
    (HyperLogLogPresto.create b).dense_bucket_.length = 2 ^ b ∧
    (b = 0 → HyperLogLog.CalcIndex b hash = 0) ∧
    (∀ hashes : List Nat, ∃ s, HyperLogLog.addAll (HyperLogLog.create b) hashes = some s) := by
  have hlen : (HyperLogLog.create b).registers_.length = 2 ^ b := by
    simp [HyperLogLog.create, Nat.shiftLeft_eq]
  have hlt := top_bits_lt b hash (by omega) hh
  refine ⟨HyperLogLog_CalcIndex_eq b hash hh, HyperLogLogPresto_CalcIndex_eq b hash hh, ?_,
    hlen, ?_, ?_, ?_⟩
  · rw [HyperLogLog_CalcIndex_eq b hash hh]
    exact hlt
  · simp [HyperLogLogPresto.create, Nat.shiftLeft_eq]
  · intro hb0
    subst hb0
    rw [HyperLogLog_CalcIndex_eq 0 hash hh]
    simpa using hlt
  · intro hashes
    obtain ⟨s, hs, _⟩ := addAll_spec hashes (HyperLogLog.create b) hlen
      (by show b ≤ 64; omega)
    exact ⟨s, hs⟩

theorem calc_index_in_range_witness :
    (3 : Nat) ≤ 16 ∧ (13835058055282163712 : Nat) < 2 ^ 64 ∧
      (HyperLogLog.CalcIndex 3 13835058055282163712 = 13835058055282163712 / 2 ^ (64 - 3) ∧
      HyperLogLogPresto.CalcIndex 3 13835058055282163712
        = 13835058055282163712 / 2 ^ (64 - 3) ∧
      HyperLogLog.CalcIndex 3 13835058055282163712 < 2 ^ 3 ∧
      (HyperLogLog.create 3).registers_.length = 2 ^ 3 ∧
      (HyperLogLogPresto.create 3).dense_bucket_.length = 2 ^ 3 ∧
      ((3 : Nat) = 0 → HyperLogLog.CalcIndex 3 13835058055282163712 = 0) ∧
      (∀ hashes : List Nat,
        ∃ s, HyperLogLog.addAll (HyperLogLog.create 3) hashes = some s)) :=
  ⟨by decide, by decide, calc_index_in_range 3 13835058055282163712 (by decide) (by decide)⟩

/-- C19 (AddElem only raises one register): for every register array of
`2 ^ b` registers, `b` at most 64, and every hash, AddElem returns; the
register at `CalcIndex` becomes the maximum of its old value and
`PositionOfLeftmostOne`, every other register, the number of registers and `b`
are unchanged; adding the same element again changes nothing; over any
sequence of AddElem calls no register decreases and a register array bounded
by `64 - b`, such as the one the constructor builds, stays bounded by
`64 - b`. -/
theorem add_elem_raises_one_register (s : HyperLogLog) (hash : Nat)
    (hlen : s.registers_.length = 2 ^ s.b_) (hb : s.b_ ≤ 64) :
    ∃ (old : Nat) (s1 : HyperLogLog),
      s.registers_[HyperLogLog.CalcIndex s.b_ (HyperLogLog.ComputeBinary hash)]? = some old ∧
      HyperLogLog.AddElem s hash = some s1 ∧
      s1.registers_[HyperLogLog.CalcIndex s.b_ (HyperLogLog.ComputeBinary hash)]?
        = some (max old
            (HyperLogLog.PositionOfLeftmostOne s.b_ (HyperLogLog.ComputeBinary hash))) ∧
      (∀ j, j ≠ HyperLogLog.CalcIndex s.b_ (HyperLogLog.ComputeBinary hash) →
        s1.registers_[j]? = s.registers_[j]?) ∧
      s1.b_ = s.b_ ∧ s1.registers_.length = s.registers_.length ∧
      s1.cardinality_ = s.cardinality_ ∧
      HyperLogLog.AddElem s1 hash = some s1 ∧
      (∀ hashes : List Nat, ∃ s2, HyperLogLog.addAll s hashes = some s2 ∧
        (∀ (j x : Nat), s.registers_[j]? = some x →
          ∃ y, s2.registers_[j]? = some y ∧ x ≤ y) ∧
        ((∀ x, x ∈ s.registers_ → x ≤ 64 - s.b_) →
          ∀ y, y ∈ s2.registers_ → y ≤ 64 - s.b_)) ∧
      (∀ (hashes : List Nat) (s2 : HyperLogLog),
        HyperLogLog.addAll (HyperLogLog.create s.b_) hashes = some s2 →
        ∀ y, y ∈ s2.registers_ → y ≤ 64 - s.b_) := by
  obtain ⟨old, s1, hold, hadd, hs1, hidx⟩ := AddElem_spec s hash hlen hb
  refine ⟨old, s1, hold, hadd, ?_, ?_, ?_, ?_, ?_, ?_, ?_, ?_⟩
  · rw [hs1]
    simp [List.getElem?_set, hidx]
  · intro j hj
    rw [hs1]
    simp [List.getElem?_set, Ne.symm hj]
  · rw [hs1]
  · rw [hs1]
    simp
  · rw [hs1]
  · have hget : s1.registers_[HyperLogLog.CalcIndex s1.b_ (HyperLogLog.ComputeBinary hash)]?
        = some (max old
            (HyperLogLog.PositionOfLeftmostOne s.b_ (HyperLogLog.ComputeBinary hash))) := by
      rw [hs1]
      simp [List.getElem?_set, hidx]
    simp only [HyperLogLog.AddElem, hget]
    rw [hs1]
    simp
  · intro hashes
    obtain ⟨s2, hrun, _, _, hmono, hbound⟩ := addAll_spec hashes s hlen hb
    exact ⟨s2, hrun, hmono, hbound⟩
  · intro hashes s2 hrun
    have hlenc : (HyperLogLog.create s.b_).registers_.length
        = 2 ^ (HyperLogLog.create s.b_).b_ := by
      simp [HyperLogLog.create, Nat.shiftLeft_eq]
    obtain ⟨s3, hrun3, _, _, _, hbound⟩ :=
      addAll_spec hashes (HyperLogLog.create s.b_) hlenc hb
    rw [hrun] at hrun3
    cases hrun3
    apply hbound
    intro x hx
    have : x = 0 := List.eq_of_mem_replicate hx
    rw [this]
    exact Nat.zero_le _

theorem add_elem_raises_one_register_witness :
    (HyperLogLog.create 2).registers_.length = 2 ^ (HyperLogLog.create 2).b_ ∧
      (HyperLogLog.create 2).b_ ≤ 64 ∧
      ∃ (old : Nat) (s1 : HyperLogLog),
        (HyperLogLog.create 2).registers_[HyperLogLog.CalcIndex (HyperLogLog.create 2).b_
          (HyperLogLog.ComputeBinary 13835058055282163713)]? = some old ∧
        HyperLogLog.AddElem (HyperLogLog.create 2) 13835058055282163713 = some s1 ∧
        s1.registers_[HyperLogLog.CalcIndex (HyperLogLog.create 2).b_
          (HyperLogLog.ComputeBinary 13835058055282163713)]?
          = some (max old (HyperLogLog.PositionOfLeftmostOne (HyperLogLog.create 2).b_
              (HyperLogLog.ComputeBinary 13835058055282163713))) ∧
        (∀ j, j ≠ HyperLogLog.CalcIndex (HyperLogLog.create 2).b_
            (HyperLogLog.ComputeBinary 13835058055282163713) →
          s1.registers_[j]? = (HyperLogLog.create 2).registers_[j]?) ∧
        s1.b_ = (HyperLogLog.create 2).b_ ∧
        s1.registers_.length = (HyperLogLog.create 2).registers_.length ∧
        s1.cardinality_ = (HyperLogLog.create 2).cardinality_ ∧
        HyperLogLog.AddElem s1 13835058055282163713 = some s1 ∧
        (∀ hashes : List Nat, ∃ s2,
          HyperLogLog.addAll (HyperLogLog.create 2) hashes = some s2 ∧
          (∀ (j x : Nat), (HyperLogLog.create 2).registers_[j]? = some x →
            ∃ y, s2.registers_[j]? = some y ∧ x ≤ y) ∧
          ((∀ x, x ∈ (HyperLogLog.create 2).registers_ →
              x ≤ 64 - (HyperLogLog.create 2).b_) →
            ∀ y, y ∈ s2.registers_ → y ≤ 64 - (HyperLogLog.create 2).b_)) ∧
        (∀ (hashes : List Nat) (s2 : HyperLogLog),
          HyperLogLog.addAll (HyperLogLog.create (HyperLogLog.create 2).b_) hashes = some s2 →
          ∀ y, y ∈ s2.registers_ → y ≤ 64 - (HyperLogLog.create 2).b_) :=
  ⟨by decide, by decide,
    add_elem_raises_one_register (HyperLogLog.create 2) 13835058055282163713 (by decide)
      (by decide)⟩

/-! ## HyperLogLogPresto: the dense and overflow buckets -/

theorem ovFind_ovAssign (m : List (Nat × Nat)) (idx j o : Nat) :
    ovFind (ovAssign m idx o) j = if j = idx then some o else ovFind m j := by
  induction m with
  | nil =>
    by_cases hj : j = idx
    · simp [ovAssign, ovFind, hj]
    · have hj2 : ¬ idx = j := fun e => hj e.symm
      simp [ovAssign, ovFind, hj, hj2]
  | cons e m ih =>
    obtain ⟨k, x⟩ := e
    by_cases hk : k = idx
    · subst hk
      by_cases hj : j = k
      · simp [ovAssign, ovFind, hj]
      · have hj2 : ¬ k = j := fun e => hj e.symm
        simp [ovAssign, ovFind, hj, hj2]
    · by_cases hj : j = idx
      · subst hj
        simp [ovAssign, ovFind, hk, ih]
      · by_cases hkj : k = j
        · simp [ovAssign, ovFind, hk, hj, hkj]
        · simp [ovAssign, ovFind, hk, hj, hkj, ih]

theorem ovFind_ovErase (m : List (Nat × Nat)) (idx j : Nat) :
    ovFind (ovErase m idx) j = if j = idx then none else ovFind m j := by
  induction m with
  | nil => simp [ovErase, ovFind]
  | cons e m ih =>
    obtain ⟨k, x⟩ := e
    by_cases hk : k = idx
    · subst hk
      by_cases hj : j = k
      · subst hj
        simp [ovErase, ih]
      · have hj2 : ¬ k = j := fun e => hj e.symm
        simp [ovErase, ovFind, ih, hj, hj2]
    · by_cases hj : j = idx
      · subst hj
        simp [ovErase, ovFind, hk, ih]
      · by_cases hkj : k = j
        · simp [ovErase, ovFind, hk, hj, hkj]
        · simp [ovErase, ovFind, hk, hj, hkj, ih]

theorem presto_split : ∀ v, v < 128 →
    HyperLogLogPresto.CalcDense (v % 2 ^ TOTAL_BUCKET_SIZE) = v % 16 ∧
    HyperLogLogPresto.CalcOverflow (v % 2 ^ TOTAL_BUCKET_SIZE) = v / 16 := by
  decide

theorem presto_join : ∀ d, d < 16 → ∀ o, o < 8 →
    d ||| (o <<< DENSE_BUCKET_SIZE) = d + 16 * o := by
  decide

theorem SetRegister_mod (s : HyperLogLogPresto) (idx value : Nat) :
    HyperLogLogPresto.SetRegister s idx value
      = HyperLogLogPresto.SetRegister s idx (value % 128) := by
  have h7 : 2 ^ TOTAL_BUCKET_SIZE = 128 := by decide
  simp only [HyperLogLogPresto.SetRegister, h7, Nat.mod_mod]

/-- What SetRegister does for a 7-bit value, in arithmetic terms. -/
theorem SetRegister_eq (s : HyperLogLogPresto) (idx v old : Nat) (hv : v < 128)
    (hget : HyperLogLogPresto.GetRegisterValue s idx = some old) :
    HyperLogLogPresto.SetRegister s idx v
      = if old > v then some s
        else if v / 16 > 0 then
          some ⟨s.dense_bucket_.set idx (v % 16), ovAssign s.overflow_bucket_ idx (v / 16),
            s.cardinality_, s.b_⟩
        else
          some ⟨s.dense_bucket_.set idx (v % 16), ovErase s.overflow_bucket_ idx,
            s.cardinality_, s.b_⟩ := by
  obtain ⟨hd, ho⟩ := presto_split v hv
  have hjoin : v % 16 ||| ((v / 16) <<< DENSE_BUCKET_SIZE) = v := by
    rw [presto_join (v % 16) (Nat.mod_lt _ (by decide)) (v / 16) (by omega)]
    omega
  simp only [HyperLogLogPresto.SetRegister, hget, hd, ho, hjoin]

/-- The value of a register in terms of its two buckets. -/
theorem GetRegisterValue_eq (s : HyperLogLogPresto) (hok : HyperLogLogPresto.BucketsOK s)
    (idx : Nat) (hidx : idx < s.dense_bucket_.length) :
    ∃ d, s.dense_bucket_[idx]? = some d ∧ d < 16 ∧
      ((ovFind s.overflow_bucket_ idx = none ∧
          HyperLogLogPresto.GetRegisterValue s idx = some d) ∨
        (∃ o, ovFind s.overflow_bucket_ idx = some o ∧ 0 < o ∧ o < 8 ∧
          HyperLogLogPresto.GetRegisterValue s idx = some (d + 16 * o))) := by
  have hd : s.dense_bucket_[idx]? = some s.dense_bucket_[idx] := List.getElem?_eq_getElem hidx
  have hlt : s.dense_bucket_[idx] < 16 := hok.1 _ (List.getElem?_mem hd)
  refine ⟨s.dense_bucket_[idx], hd, hlt, ?_⟩
  cases hov : ovFind s.overflow_bucket_ idx with
  | none =>
    left
    refine ⟨rfl, ?_⟩
    simp only [HyperLogLogPresto.GetRegisterValue, hd, hov]
    rw [presto_join _ hlt 0 (by decide), Nat.mul_zero, Nat.add_zero]
  | some o =>
    right
    obtain ⟨ho1, ho2⟩ := hok.2 idx o hov
    refine ⟨o, rfl, ho1, ho2, ?_⟩
    simp only [HyperLogLogPresto.GetRegisterValue, hd, hov]
    rw [presto_join _ hlt o ho2]

theorem SetRegister_idx_lt {s s1 : HyperLogLogPresto} {idx value : Nat}
    (e : HyperLogLogPresto.SetRegister s idx value = some s1) :
    idx < s.dense_bucket_.length := by
  by_contra hlt
  have hnone : s.dense_bucket_[idx]? = none := List.getElem?_eq_none (Nat.le_of_not_lt hlt)
  simp [HyperLogLogPresto.SetRegister, HyperLogLogPresto.GetRegisterValue, hnone] at e

theorem BucketsOK_set {s s1 : HyperLogLogPresto} {idx value : Nat}
    (hok : HyperLogLogPresto.BucketsOK s)
    (e : HyperLogLogPresto.SetRegister s idx value = some s1) :
    HyperLogLogPresto.BucketsOK s1 := by
  have hidx := SetRegister_idx_lt e
  obtain ⟨d, _, _, hcase⟩ := GetRegisterValue_eq s hok idx hidx
  have hv : value % 128 < 128 := Nat.mod_lt _ (by decide)
  have hget : ∃ old, HyperLogLogPresto.GetRegisterValue s idx = some old := by
    rcases hcase with ⟨_, hg⟩ | ⟨o, _, _, _, hg⟩
    · exact ⟨_, hg⟩
    · exact ⟨_, hg⟩
  obtain ⟨old, hold⟩ := hget
  rw [SetRegister_mod, SetRegister_eq s idx (value % 128) old hv hold] at e
  by_cases hgt : old > value % 128
  · rw [if_pos hgt] at e
    cases e
    exact hok
  · rw [if_neg hgt] at e
    by_cases hov : value % 128 / 16 > 0
    · rw [if_pos hov] at e
      cases e
      refine ⟨?_, ?_⟩
      · intro x hx
        rcases List.mem_or_eq_of_mem_set hx with hmem | heq
        · exact hok.1 x hmem
        · rw [heq]
          exact Nat.mod_lt _ (by decide)
      · intro j o hj
        simp only [ovFind_ovAssign] at hj
        by_cases hji : j = idx
        · rw [if_pos hji] at hj
          cases hj
          exact ⟨hov, by omega⟩
        · rw [if_neg hji] at hj
          exact hok.2 j o hj
    · rw [if_neg hov] at e
      cases e
      refine ⟨?_, ?_⟩
      · intro x hx
        rcases List.mem_or_eq_of_mem_set hx with hmem | heq
        · exact hok.1 x hmem
        · rw [heq]
          exact Nat.mod_lt _ (by decide)
      · intro j o hj
        simp only [ovFind_ovErase] at hj
        by_cases hji : j = idx
        · rw [if_pos hji] at hj
          cases hj
        · rw [if_neg hji] at hj
          exact hok.2 j o hj

theorem Reachable_BucketsOK {s : HyperLogLogPresto} (hr : HyperLogLogPresto.Reachable s) :
    HyperLogLogPresto.BucketsOK s := by
  induction hr with
  | create n =>
    refine ⟨?_, ?_⟩
    · intro d hd
      have : d = 0 := List.eq_of_mem_replicate hd
      omega
    · intro idx o ho
      simp [HyperLogLogPresto.create, ovFind] at ho
  | set idx value _ hset ih => exact BucketsOK_set ih hset

theorem GetRegisterValue_other (s : HyperLogLogPresto) (idx j x : Nat)
    (ov : List (Nat × Nat)) (hov : ovFind ov j = ovFind s.overflow_bucket_ j)
    (hj : j ≠ idx) :
    HyperLogLogPresto.GetRegisterValue
        ⟨s.dense_bucket_.set idx x, ov, s.cardinality_, s.b_⟩ j
      = HyperLogLogPresto.GetRegisterValue s j := by
  simp only [HyperLogLogPresto.GetRegisterValue, hov, List.getElem?_set, Ne.symm hj, if_false]

/-- C17 (Presto registers keep the maximum across the dense/overflow split):
for every register state the object can be in, every index of a register and
every value `v` below 128, SetRegister returns; afterwards GetRegisterValue of
the index is the maximum of the old value and `v`, every other register reads
as before, and the overflow map has an entry for the index exactly when the
stored value is at least 16; the dense part of `v` is its low 4 bits, the
overflow part its next 3 bits, and recombining them gives `v`. -/
theorem presto_register_keeps_max (s : HyperLogLogPresto) (idx v : Nat)
    (hr : HyperLogLogPresto.Reachable s) (hidx : idx < s.dense_bucket_.length)
    (hv : v < 128) :
    ∃ (old : Nat) (s1 : HyperLogLogPresto),
      HyperLogLogPresto.GetRegisterValue s idx = some old ∧
      HyperLogLogPresto.SetRegister s idx v = some s1 ∧
      HyperLogLogPresto.GetRegisterValue s1 idx = some (max old v) ∧
      (∀ j, j ≠ idx →
        HyperLogLogPresto.GetRegisterValue s1 j = HyperLogLogPresto.GetRegisterValue s j) ∧
      ((∃ o, ovFind s1.overflow_bucket_ idx = some o) ↔ 16 ≤ max old v) ∧
      HyperLogLogPresto.CalcDense (v % 2 ^ TOTAL_BUCKET_SIZE) = v % 16 ∧
      HyperLogLogPresto.CalcOverflow (v % 2 ^ TOTAL_BUCKET_SIZE) = v / 16 ∧
      (v % 16) ||| ((v / 16) <<< DENSE_BUCKET_SIZE) = v := by
  have hok := Reachable_BucketsOK hr
  obtain ⟨hd, ho⟩ := presto_split v hv
  have hjoin : v % 16 ||| ((v / 16) <<< DENSE_BUCKET_SIZE) = v := by
    rw [presto_join (v % 16) (Nat.mod_lt _ (by decide)) (v / 16) (by omega)]
    omega
  obtain ⟨d, hdense, hdlt, hcase⟩ := GetRegisterValue_eq s hok idx hidx
  have hold : ∃ old, HyperLogLogPresto.GetRegisterValue s idx = some old ∧
      ((∃ o, ovFind s.overflow_bucket_ idx = some o) ↔ 16 ≤ old) := by
    rcases hcase with ⟨hnone, hg⟩ | ⟨o, hsome, ho1, _, hg⟩
    · refine ⟨d, hg, ?_⟩
      constructor
      · rintro ⟨o, ho⟩
        rw [hnone] at ho
        cases ho
      · intro hle
        omega
    · refine ⟨d + 16 * o, hg, ?_⟩
      constructor
      · intro _
        omega
      · intro _
        exact ⟨o, hsome⟩
  obtain ⟨old, hget, hentry⟩ := hold
  have hset := SetRegister_eq s idx v old hv hget
  by_cases hgt : old > v
  · rw [if_pos hgt] at hset
    have hmax : max old v = old := max_eq_left (Nat.le_of_lt hgt)
    refine ⟨old, s, hget, hset, ?_, fun j _ => rfl, ?_, hd, ho, hjoin⟩
    · rw [hmax]
      exact hget
    · rw [hmax]
      exact hentry
  · rw [if_neg hgt] at hset
    have hmax : max old v = v := max_eq_right (Nat.le_of_not_lt hgt)
    by_cases hov : v / 16 > 0
    · rw [if_pos hov] at hset
      refine ⟨old, _, hget, hset, ?_, ?_, ?_, hd, ho, hjoin⟩
      · rw [hmax]
        simp only [HyperLogLogPresto.GetRegisterValue, List.getElem?_set, hidx, if_true,
          ovFind_ovAssign, hjoin]
      · intro j hj
        apply GetRegisterValue_other s idx j _ _ _ hj
        rw [ovFind_ovAssign, if_neg hj]
      · rw [hmax]
        simp only [ovFind_ovAssign, if_true]
        constructor
        · intro _
          omega
        · intro _
          exact ⟨_, rfl⟩
    · rw [if_neg hov] at hset
      have hv16 : v / 16 = 0 := by omega
      refine ⟨old, _, hget, hset, ?_, ?_, ?_, hd, ho, hjoin⟩
      · rw [hmax]
        have hz : v % 16 ||| (0 <<< DENSE_BUCKET_SIZE) = v := by
          rw [← hv16]
          exact hjoin
        simp only [HyperLogLogPresto.GetRegisterValue, List.getElem?_set, hidx, if_true,
          ovFind_ovErase, hz]
      · intro j hj
        apply GetRegisterValue_other s idx j _ _ _ hj
        rw [ovFind_ovErase, if_neg hj]
      · rw [hmax]
        simp only [ovFind_ovErase, if_true]
        constructor
        · rintro ⟨o, ho⟩
          cases ho
        · intro hle
          omega

theorem presto_register_keeps_max_witness :
    HyperLogLogPresto.Reachable (HyperLogLogPresto.create 2) ∧
      1 < (HyperLogLogPresto.create 2).dense_bucket_.length ∧ (37 : Nat) < 128 ∧
      ∃ (old : Nat) (s1 : HyperLogLogPresto),
        HyperLogLogPresto.GetRegisterValue (HyperLogLogPresto.create 2) 1 = some old ∧
        HyperLogLogPresto.SetRegister (HyperLogLogPresto.create 2) 1 37 = some s1 ∧
        HyperLogLogPresto.GetRegisterValue s1 1 = some (max old 37) ∧
        (∀ j, j ≠ 1 → HyperLogLogPresto.GetRegisterValue s1 j
          = HyperLogLogPresto.GetRegisterValue (HyperLogLogPresto.create 2) j) ∧
        ((∃ o, ovFind s1.overflow_bucket_ 1 = some o) ↔ 16 ≤ max old 37) ∧
        HyperLogLogPresto.CalcDense (37 % 2 ^ TOTAL_BUCKET_SIZE) = 37 % 16 ∧
        HyperLogLogPresto.CalcOverflow (37 % 2 ^ TOTAL_BUCKET_SIZE) = 37 / 16 ∧
        (37 % 16) ||| ((37 / 16) <<< DENSE_BUCKET_SIZE) = 37 :=
  ⟨HyperLogLogPresto.Reachable.create 2, by decide, by decide,
    presto_register_keeps_max (HyperLogLogPresto.create 2) 1 37
      (HyperLogLogPresto.Reachable.create 2) (by decide) (by decide)⟩

end bustub
